import Mathlib

/-!
Verification of the SWHE arithmetic core implemented in `src/app.py`.

The development has two layers.

The source layer embeds the program as it is: `q_p(z, p)` in `src/app.py`
is `round(z / p)` where `z / p` is CPython float true division, i.e. the
exact rational `z / p` is first rounded to the nearest IEEE-754 binary64
value (ties to even significand, `OverflowError` when the rounded
magnitude reaches `2^1024`), and `round` then rounds that double to the
nearest integer, ties to even.  Doubles are dyadic rationals, so this
composite is modelled exactly with integer arithmetic: `floatDivPos`
returns the value of the correctly rounded double as `num / 2^k`, and the
source functions `q_p`, `mod_p`, `decrypt`, `homomorphic_xor`,
`homomorphic_and`, `encrypt_bit`, `test_operations` are `Option`-valued,
`none` standing for an uncaught `ZeroDivisionError`/`OverflowError` (both
subclasses of `ArithmeticError`).  Randomness consumed by `encrypt_bit`
(the sampled index subset `S` and the noise `r`) is modelled by passing
the drawn values as explicit arguments.

The reference layer (`q_pRef`, `mod_pRef`, `decryptRef`, ...) is the
infinite-precision semantics the spec describes and the docstrings of
`src/app.py` promise: exact banker's rounding of the rational `z / p`
with no precision loss and no overflow.  The agreement theorem
`q_p_eq_ref` proves the two layers coincide whenever `|z| < 2^52`
(dividend within double precision); the counterexamples show they
diverge beyond it.
-/

set_option maxRecDepth 8000
set_option exponentiation.threshold 5000

namespace SWHE

/-- Nearest integer to the exact rational `z / p` for `p > 0`, ties
(fractional part exactly one half) resolved to the even integer: the
round-to-nearest-even primitive.  It is used both for the reference
semantics and, inside the float model, for significand rounding and for
Python's `round` applied to a (dyadic rational) double. -/
def roundHalfEvenPos (z p : Int) : Int :=
  if 2 * (z % p) < p then z / p
  else if p < 2 * (z % p) then z / p + 1
  else if (z / p) % 2 = 0 then z / p else z / p + 1

/-- Reference semantics of `q_p(z, p)` from `src/app.py`: `round(z / p)`
with the division read as exact rational arithmetic — the quotient of `z`
by `p` rounded to the nearest integer, ties to even.  This is what the
spec and the docstring of `q_p` describe; the program itself computes
`z / p` in floating point (see `q_p` below).  A negative divisor is
reduced to the positive case through `z / p = (-z) / (-p)`.  The value at
`p = 0` is junk (the program raises there). -/
def q_pRef (z p : Int) : Int :=
  if 0 < p then roundHalfEvenPos z p
  else if p < 0 then roundHalfEvenPos (-z) (-p)
  else 0

/-- Reference semantics of `mod_p(z, p)`: `z - q_pRef(z, p) * p`, the
exact centered residue of `z` modulo `p`. -/
def mod_pRef (z p : Int) : Int := z - q_pRef z p * p

/-- Reference semantics of `decrypt(sk, c)`:
`mod_pRef(mod_pRef(c, sk), 2)`. -/
def decryptRef (sk c : Int) : Int := mod_pRef (mod_pRef c sk) 2

/-- Reference semantics of `homomorphic_xor(c1, c2, x0)`:
`mod_pRef(c1 + c2, x0)`. -/
def homomorphic_xorRef (c1 c2 x0 : Int) : Int := mod_pRef (c1 + c2) x0

/-- Reference semantics of `homomorphic_and(c1, c2, x0)`:
`mod_pRef(c1 * c2, x0)`. -/
def homomorphic_andRef (c1 c2 x0 : Int) : Int := mod_pRef (c1 * c2) x0

/-- State of one accumulation chain inside `test_operations`: the current
ciphertext, the operation counter, and whether the loop has hit `break`.
Shared by the reference and the source layers. -/
structure ChainState where
  current : Int
  num : Nat
  broken : Bool

/-- Reference semantics of one iteration of a chain loop in
`test_operations`: if the loop has already broken nothing happens;
otherwise the accumulator is advanced with the step function, the result
is decrypted and compared with the reference bit, a mismatch breaks the
loop, and a match increments the counter. -/
def chainStepRef (f : Int → Int) (sk orig : Int) (s : ChainState) : ChainState :=
  if s.broken then s
  else
    let next := f s.current
    if decryptRef sk next ≠ orig then { current := next, num := s.num, broken := true }
    else { current := next, num := s.num + 1, broken := false }

/-- Reference semantics of `k` iterations of a chain loop of
`test_operations`. -/
def runChainRef (f : Int → Int) (sk orig : Int) : Nat → ChainState → ChainState
  | 0, s => s
  | k + 1, s => chainStepRef f sk orig (runChainRef f sk orig k s)

/-- Reference semantics of `test_operations(ciphertext, sk, x0,
max_iterations)`: decrypt the starting ciphertext once, then run the XOR
chain and the AND chain for at most `max_iterations` steps each, counting
the steps whose decryption still matches, and return the two counters. -/
def test_operationsRef (ciphertext sk x0 : Int) (max_iterations : Nat) : Nat × Nat :=
  let original_message := decryptRef sk ciphertext
  let sx := runChainRef (fun cur => homomorphic_xorRef cur ciphertext x0) sk
    original_message max_iterations ⟨ciphertext, 0, false⟩
  let sa := runChainRef (fun cur => homomorphic_andRef cur ciphertext x0) sk
    original_message max_iterations ⟨ciphertext, 0, false⟩
  (sx.num, sa.num)

/-- Pure value of a chain after `i` steps: `chainValue f c i` is `f`
iterated `i` times on `c`. -/
def chainValue (f : Int → Int) (c : Int) : Nat → Int
  | 0 => c
  | i + 1 => f (chainValue f c i)

/-- Reference value of the XOR chain of `test_operations` after `i`
steps: starting from `ciphertext`, each step sets
`current = homomorphic_xorRef(current, ciphertext, x0)`. -/
def xorChainValueRef (ct x0 : Int) : Nat → Int :=
  chainValue (fun cur => homomorphic_xorRef cur ct x0) ct

/-- Reference value of the AND chain of `test_operations` after `i`
steps: starting from `ciphertext`, each step sets
`current = homomorphic_andRef(current, ciphertext, x0)`. -/
def andChainValueRef (ct x0 : Int) : Nat → Int :=
  chainValue (fun cur => homomorphic_andRef cur ct x0) ct

/-- Bit length with explicit fuel (kernel-reducible; the fuel argument
only needs to dominate the recursion depth).  Numbers of 33 bits or more
are consumed 32 bits at a time so that evaluation depth stays shallow
even for very large inputs. -/
def bitLenAux : Nat → Nat → Nat
  | 0, _ => 0
  | fuel + 1, n =>
    if n = 0 then 0
    else if n < 4294967296 then bitLenAux fuel (n / 2) + 1
    else bitLenAux fuel (n / 4294967296) + 32

/-- Bit length of a natural number: `Python n.bit_length()`, the unique
`L` with `2^(L-1) ≤ n < 2^L` for `n ≥ 1`, and `0` for `n = 0`. -/
def bitLen (n : Nat) : Nat := bitLenAux n n

/-- `2^k` as an integer, computed through `Nat.pow` (which evaluates fast
in the kernel) rather than by unary recursion on the exponent. -/
def pow2 (k : Nat) : Int := ((2 ^ k : Nat) : Int)

/-- Difference of the bit lengths of `|a|` and `|b|`, an integer within
one of `floor(log2(a/b))` for positive `a`, `b`. -/
def floatLogDiff (a b : Int) : Int :=
  (bitLen a.toNat : Int) - (bitLen b.toNat : Int)

/-- Binade exponent of the positive rational `a / b`: the unique `e` with
`2^e ≤ a/b < 2^(e+1)`, computed from the bit-length difference with a
one-step correction (the comparison is `a/b ≥ 2^e`, cleared of
denominators). -/
def floatExp (a b : Int) : Int :=
  if b * pow2 (floatLogDiff a b).toNat ≤ a * pow2 (-(floatLogDiff a b)).toNat
  then floatLogDiff a b
  else floatLogDiff a b - 1

/-- Rounded 53-bit significand of the positive rational `a / b`: the
round-to-nearest-even integer approximation of `(a/b) * 2^(52 - e)`,
which lies in `[2^52, 2^53]` (the value `2^53` occurs when rounding
carries into the next binade). -/
def floatMant (a b : Int) : Int :=
  roundHalfEvenPos (a * pow2 (52 - floatExp a b).toNat)
    (b * pow2 (floatExp a b - 52).toNat)

/-- Value of the IEEE-754 binary64 number nearest to the positive
rational `a / b` (ties to even significand), as a dyadic rational
`num / 2^k`; `none` models the `OverflowError` CPython raises when the
rounded magnitude reaches `2^1024`.  Quotients below `2^(-1022)` are
rounded on the fixed subnormal grid `2^(-1074)`.  This is the value of
CPython's `a / b` for positive ints `a`, `b` (`long_true_divide` returns
the correctly rounded double). -/
def floatDivPos (a b : Int) : Option (Int × Nat) :=
  if floatExp a b < -1022 then
    some (roundHalfEvenPos (a * pow2 1074) b, 1074)
  else if 1023 < floatExp a b + (if floatMant a b = pow2 53 then 1 else 0) then
    none
  else if 52 ≤ floatExp a b then
    some (floatMant a b * pow2 (floatExp a b - 52).toNat, 0)
  else
    some (floatMant a b, (52 - floatExp a b).toNat)

/-- Embeds `q_p(z, p)` from `src/app.py`: `round(z / p)` with CPython
semantics.  `z / p` raises `ZeroDivisionError` at `p = 0` and
`OverflowError` for huge quotients (both `ArithmeticError`s, modelled by
`none`); otherwise it is the correctly rounded double of the exact
quotient, computed on `|z|, |p|` and negated when the signs differ, and
`round` maps that dyadic rational to the nearest integer, ties to
even. -/
def q_p (z p : Int) : Option Int :=
  if p = 0 then none
  else if z = 0 then some 0
  else
    match floatDivPos (z.natAbs : Int) (p.natAbs : Int) with
    | none => none
    | some (num, k) =>
      some ((if (0 < z ∧ 0 < p) ∨ (z < 0 ∧ p < 0) then 1 else -1) *
        roundHalfEvenPos num (pow2 k))

/-- Embeds `mod_p(z, p)` from `src/app.py`: `z - q_p(z, p) * p`,
propagating the errors of `q_p`. -/
def mod_p (z p : Int) : Option Int := (q_p z p).map (fun q => z - q * p)

/-- Embeds `decrypt(sk, c)` from `src/app.py`:
`mod_p(mod_p(c, sk), 2)`, propagating errors. -/
def decrypt (sk c : Int) : Option Int :=
  (mod_p c sk).bind (fun t => mod_p t 2)

/-- Embeds `homomorphic_xor(c1, c2, x0)` from `src/app.py`:
`mod_p(c1 + c2, x0)`. -/
def homomorphic_xor (c1 c2 x0 : Int) : Option Int := mod_p (c1 + c2) x0

/-- Embeds `homomorphic_and(c1, c2, x0)` from `src/app.py`:
`mod_p(c1 * c2, x0)`. -/
def homomorphic_and (c1 c2 x0 : Int) : Option Int := mod_p (c1 * c2) x0

/-- Embeds `encrypt_bit(m, pk, rho, tau)` from `src/app.py` with the two
random draws passed explicitly: `S` is the list produced by
`random.sample(range(1, tau + 1), random.randint(1, tau))` and `r` the
integer produced by `random.randint(-2**(2*rho), 2**(2*rho))`.
`random.randint(1, tau)` raises `ValueError` when `tau < 1` and indexing
`pk[0]` up to `pk[tau]` raises `IndexError` when `len(pk) < tau + 1`
(modelled by `none`); otherwise `x0 = pk[0]`,
`x_values = [pk[i] for i in range(1, tau + 1)]`,
`sum_x_S = sum(x_values[i - 1] for i in S)`, and the result is
`mod_p(m + 2 * r + 2 * sum_x_S, x0)` with `mod_p`'s own errors
propagated.  The plaintext `m` is never inspected.  `rho` only bounds the
draw `r`, so it is carried for signature fidelity but unused. -/
def encrypt_bit (m : Int) (pk : List Int) (rho : Nat) (tau : Nat)
    (S : List Nat) (r : Int) : Option Int :=
  if tau < 1 then none
  else if pk.length < tau + 1 then none
  else
    let x0 := pk.getD 0 0
    let x_values := (List.range tau).map (fun i => pk.getD (i + 1) 0)
    let sum_x_S := (S.map (fun i => x_values.getD (i - 1) 0)).sum
    mod_p (m + 2 * r + 2 * sum_x_S) x0

/-- One iteration of a chain loop in `test_operations` (source
semantics): if the loop has already broken nothing happens; otherwise the
accumulator is advanced with the step function and the result decrypted —
an `ArithmeticError` in either propagates out of the loop — then a
mismatch with the reference bit breaks the loop and a match increments
the counter. -/
def chainStep (f : Int → Option Int) (sk orig : Int) (s : ChainState) :
    Option ChainState :=
  if s.broken then some s
  else
    match f s.current with
    | none => none
    | some next =>
      match decrypt sk next with
      | none => none
      | some d =>
        if d ≠ orig then some { current := next, num := s.num, broken := true }
        else some { current := next, num := s.num + 1, broken := false }

/-- `k` iterations of a chain loop of `test_operations` (source
semantics), propagating errors. -/
def runChain (f : Int → Option Int) (sk orig : Int) :
    Nat → ChainState → Option ChainState
  | 0, s => some s
  | k + 1, s => (runChain f sk orig k s).bind (chainStep f sk orig)

/-- Embeds `test_operations(ciphertext, sk, x0, max_iterations)` from
`src/app.py`: decrypt the starting ciphertext once, then run the XOR
chain and the AND chain for at most `max_iterations` steps each, counting
the steps whose decryption still matches; any `ArithmeticError` raised by
the reference decryption or inside a chain propagates out (`none`). -/
def test_operations (ciphertext sk x0 : Int) (max_iterations : Nat) :
    Option (Nat × Nat) :=
  (decrypt sk ciphertext).bind fun original_message =>
    (runChain (fun cur => homomorphic_xor cur ciphertext x0) sk
      original_message max_iterations ⟨ciphertext, 0, false⟩).bind fun sx =>
      (runChain (fun cur => homomorphic_and cur ciphertext x0) sk
        original_message max_iterations ⟨ciphertext, 0, false⟩).map fun sa =>
        (sx.num, sa.num)

/-- Value of an accumulation chain after `i` steps under the source
semantics, propagating errors. -/
def chainValueOpt (f : Int → Option Int) (c : Int) : Nat → Option Int
  | 0 => some c
  | i + 1 => (chainValueOpt f c i).bind f

/-- Source value of the XOR chain of `test_operations` after `i` steps:
starting from `ciphertext`, each step sets
`current = homomorphic_xor(current, ciphertext, x0)`. -/
def xorChainValue (ct x0 : Int) : Nat → Option Int :=
  chainValueOpt (fun cur => homomorphic_xor cur ct x0) ct

/-- Source value of the AND chain of `test_operations` after `i` steps:
starting from `ciphertext`, each step sets
`current = homomorphic_and(current, ciphertext, x0)`. -/
def andChainValue (ct x0 : Int) : Nat → Option Int :=
  chainValueOpt (fun cur => homomorphic_and cur ct x0) ct

example : q_p 5 2 = some 2 := by decide
example : q_p 17 5 = some 3 := by decide
example : q_p 7 2 = some 4 := by decide
example : q_p 1 (-2) = some 0 := by decide
example : q_p (-5) 2 = some (-2) := by decide
example : mod_p 7 2 = some (-1) := by decide
example : mod_p 100000000000000001 1 = some 1 := by decide
example : mod_p (pow2 2000) 1 = none := by decide
example : q_p 1 (pow2 1060) = some 0 := by decide
example : decrypt 100 3 = some (-1) := by decide
example : decrypt 1 (pow2 200 + pow2 54 + 2) = some 2 := by decide
example : xorChainValue (pow2 60 + 1) 5 2 = some (-29) := by decide
example : mod_p ((pow2 60 + 1) * 3) 5 = some 131 := by decide
example : encrypt_bit 0 [1, 100000000000000001] 0 1 [1] 0 = some 2 := by decide
example : encrypt_bit 2 [5, 3] 0 1 [1] 0 = some (-2) := by decide
example : test_operations 2 97 1000003 5 = some (5, 4) := by decide
example : test_operations (pow2 2000) 1 1 1 = none := by decide

/-- Branch analysis of `mod_pRef` for a positive modulus: the residue is the
Euclidean remainder, the remainder minus `p`, or (at a tie) one of the two
with an even quotient. -/
lemma mod_pRef_pos_cases (z p : Int) (hp : 0 < p) :
    (2 * (z % p) < p ∧ mod_pRef z p = z % p) ∨
    (p < 2 * (z % p) ∧ mod_pRef z p = z % p - p) ∨
    (2 * (z % p) = p ∧ (mod_pRef z p = z % p ∨ mod_pRef z p = z % p - p) ∧
      q_pRef z p % 2 = 0) := by
  have hz := Int.ediv_add_emod z p
  unfold mod_pRef q_pRef roundHalfEvenPos
  rw [if_pos hp]
  split_ifs with h2 h3 h4
  · exact Or.inl ⟨h2, by linear_combination -hz⟩
  · exact Or.inr (Or.inl ⟨h3, by linear_combination -hz⟩)
  · exact Or.inr (Or.inr ⟨by omega, Or.inl (by linear_combination -hz), h4⟩)
  · exact Or.inr (Or.inr ⟨by omega, Or.inr (by linear_combination -hz), by omega⟩)

/-- For a positive modulus the centered residue lies in the closed
interval `[-p/2, p/2]`, stated without rational division as
`-p ≤ 2 * mod_pRef z p ≤ p`. -/
lemma mod_pRef_bound_pos (z p : Int) (hp : 0 < p) :
    -p ≤ 2 * mod_pRef z p ∧ 2 * mod_pRef z p ≤ p := by
  have hr0 : 0 ≤ z % p := Int.emod_nonneg z (ne_of_gt hp)
  have hrp : z % p < p := Int.emod_lt_of_pos z hp
  rcases mod_pRef_pos_cases z p hp with ⟨h1, h2⟩ | ⟨h1, h2⟩ | ⟨h1, h2, _⟩
  · omega
  · omega
  · rcases h2 with h2 | h2 <;> omega

/-- `q_pRef` is invariant under negating both arguments (the exact rational
`z / p` is unchanged). -/
lemma q_pRef_neg_neg (z p : Int) : q_pRef (-z) (-p) = q_pRef z p := by
  unfold q_pRef
  rcases lt_trichotomy p 0 with h | h | h
  · rw [if_pos (by omega : (0:Int) < -p), if_neg (by omega : ¬(0:Int) < p),
      if_pos h]
  · subst h
    norm_num
  · rw [if_neg (by omega : ¬(0:Int) < -p), if_pos (by omega : -p < (0:Int)),
      if_pos h, neg_neg, neg_neg]

/-- Negating both arguments negates the centered residue. -/
lemma mod_pRef_neg_neg (z p : Int) : mod_pRef (-z) (-p) = - mod_pRef z p := by
  unfold mod_pRef
  rw [q_pRef_neg_neg]
  ring

/-- For any nonzero modulus the centered residue lies in the closed
interval `[-|p|/2, |p|/2]`. -/
lemma mod_pRef_bound (z p : Int) (hp : p ≠ 0) :
    -|p| ≤ 2 * mod_pRef z p ∧ 2 * mod_pRef z p ≤ |p| := by
  rcases hp.lt_or_lt with h | h
  · have hb := mod_pRef_bound_pos (-z) (-p) (by omega)
    rw [mod_pRef_neg_neg] at hb
    rw [abs_of_neg h]
    omega
  · rw [abs_of_pos h]
    exact mod_pRef_bound_pos z p h

/-- Absolute-value form of the interval bound. -/
lemma mod_pRef_abs_bound (z p : Int) (hp : p ≠ 0) : 2 * |mod_pRef z p| ≤ |p| := by
  have hb := mod_pRef_bound z p hp
  rcases abs_cases (mod_pRef z p) with ⟨h, _⟩ | ⟨h, _⟩ <;> omega

/-- The centered residue is congruent to the argument modulo `p`. -/
lemma mod_pRef_congr (z p : Int) : p ∣ z - mod_pRef z p := by
  have h : z - mod_pRef z p = p * q_pRef z p := by unfold mod_pRef; ring
  exact ⟨q_pRef z p, h⟩

/-- Any multiple of `p` other than `q_pRef z p * p` is at distance at least
`|p| - |mod_pRef z p|` from `z`. -/
lemma mod_pRef_other_ge (z p k : Int) (hp : p ≠ 0) (hk : k ≠ q_pRef z p) :
    |p| - |mod_pRef z p| ≤ |z - k * p| := by
  have hd : k - q_pRef z p ≠ 0 := fun h => hk (by omega)
  have h1 : z - k * p = mod_pRef z p - (k - q_pRef z p) * p := by unfold mod_pRef; ring
  have h2 : |(k - q_pRef z p) * p| - |mod_pRef z p| ≤ |(k - q_pRef z p) * p - mod_pRef z p| :=
    abs_sub_abs_le_abs_sub _ _
  have h3 : |(k - q_pRef z p) * p - mod_pRef z p| = |mod_pRef z p - (k - q_pRef z p) * p| :=
    abs_sub_comm _ _
  have h4 : |p| ≤ |(k - q_pRef z p) * p| := by
    rw [abs_mul]
    exact le_mul_of_one_le_left (abs_nonneg p) (Int.one_le_abs hd)
  rw [h1]
  linarith

/-- `q_pRef z p * p` is a multiple of `p` nearest to `z`. -/
lemma mod_pRef_nearest (z p k : Int) (hp : p ≠ 0) :
    |z - q_pRef z p * p| ≤ |z - k * p| := by
  by_cases hk : k = q_pRef z p
  · rw [hk]
  · have h0 : mod_pRef z p = z - q_pRef z p * p := rfl
    have := mod_pRef_other_ge z p k hp hk
    have hb := mod_pRef_abs_bound z p hp
    rw [← h0]
    linarith

/-- At a tie (`2 |mod_pRef z p| = |p|`) with a positive modulus the chosen
quotient is even. -/
lemma mod_pRef_tie_even_pos (z p : Int) (hp : 0 < p) (h : 2 * |mod_pRef z p| = p) :
    q_pRef z p % 2 = 0 := by
  have hr0 : 0 ≤ z % p := Int.emod_nonneg z (ne_of_gt hp)
  have hrp : z % p < p := Int.emod_lt_of_pos z hp
  rcases mod_pRef_pos_cases z p hp with ⟨h1, h2⟩ | ⟨h1, h2⟩ | ⟨_, _, h3⟩
  · rcases abs_cases (mod_pRef z p) with ⟨ha, _⟩ | ⟨ha, _⟩ <;> omega
  · rcases abs_cases (mod_pRef z p) with ⟨ha, _⟩ | ⟨ha, _⟩ <;> omega
  · exact h3

/-- At a tie the chosen quotient is even, for any nonzero modulus. -/
lemma mod_pRef_tie_even (z p : Int) (hp : p ≠ 0) (h : 2 * |mod_pRef z p| = |p|) :
    q_pRef z p % 2 = 0 := by
  rcases hp.lt_or_lt with hneg | hpos
  · have h' : 2 * |mod_pRef (-z) (-p)| = -p := by
      rw [mod_pRef_neg_neg, abs_neg]
      rw [abs_of_neg hneg] at h
      exact h
    have he := mod_pRef_tie_even_pos (-z) (-p) (by omega) h'
    rwa [q_pRef_neg_neg] at he
  · rw [abs_of_pos hpos] at h
    exact mod_pRef_tie_even_pos z p hpos h

/-- If a different multiple of `p` is exactly as close to `z` as
`q_pRef z p * p`, then a rounding tie occurred and `q_pRef z p` is even. -/
lemma mod_pRef_tie_of_eq (z p k : Int) (hp : p ≠ 0) (hk : k ≠ q_pRef z p)
    (heq : |z - k * p| = |z - q_pRef z p * p|) : q_pRef z p % 2 = 0 := by
  apply mod_pRef_tie_even z p hp
  have h0 : mod_pRef z p = z - q_pRef z p * p := rfl
  have hge := mod_pRef_other_ge z p k hp hk
  have hb := mod_pRef_abs_bound z p hp
  rw [← h0] at heq
  omega

/-- `mod_pRef` with modulus `2` only takes the values `-1`, `0`, `1`. -/
lemma mod_pRef_two (t : Int) : mod_pRef t 2 = -1 ∨ mod_pRef t 2 = 0 ∨ mod_pRef t 2 = 1 := by
  have hb := mod_pRef_bound_pos t 2 (by omega)
  omega

/-- `decryptRef` only takes the values `-1`, `0`, `1`. -/
lemma decryptRef_mem (sk c : Int) :
    decryptRef sk c = -1 ∨ decryptRef sk c = 0 ∨ decryptRef sk c = 1 :=
  mod_pRef_two (mod_pRef c sk)

/-- `q_pRef` for a positive modulus is the round-half-even quotient. -/
lemma q_pRef_of_pos (z p : Int) (h : 0 < p) : q_pRef z p = roundHalfEvenPos z p := by
  unfold q_pRef
  rw [if_pos h]

/-- `q_pRef` for a negative modulus reduces to the positive case. -/
lemma q_pRef_of_neg (z p : Int) (h : p < 0) :
    q_pRef z p = roundHalfEvenPos (-z) (-p) := by
  unfold q_pRef
  rw [if_neg (by omega), if_pos h]

/-- For an odd positive modulus no rounding tie can occur, so the rounded
quotient commutes with adding an integer multiple of the modulus. -/
lemma roundHalfEvenPos_add_mul (z k p : Int) (hp : 0 < p) (hodd : p % 2 = 1) :
    roundHalfEvenPos (z + k * p) p = roundHalfEvenPos z p + k := by
  have hne : p ≠ 0 := by omega
  have hd : (z + k * p) / p = z / p + k := Int.add_mul_ediv_right z k hne
  have hm : (z + k * p) % p = z % p := Int.add_mul_emod_self
  unfold roundHalfEvenPos
  rw [hd, hm]
  split_ifs <;> omega

/-- For an odd modulus the rounded quotient commutes with adding a
multiple of the modulus. -/
lemma q_pRef_add_mul (z k p : Int) (hodd : p % 2 = 1) :
    q_pRef (z + k * p) p = q_pRef z p + k := by
  have hne : p ≠ 0 := by omega
  rcases hne.lt_or_lt with h | h
  · rw [q_pRef_of_neg (z + k * p) p h, q_pRef_of_neg z p h]
    have h2 : -(z + k * p) = -z + k * (-p) := by ring
    rw [h2]
    exact roundHalfEvenPos_add_mul (-z) k (-p) (by omega) (by omega)
  · rw [q_pRef_of_pos (z + k * p) p h, q_pRef_of_pos z p h]
    exact roundHalfEvenPos_add_mul z k p h hodd

/-- For an odd modulus the centered residue is invariant under adding a
multiple of the modulus. -/
lemma mod_pRef_add_mul (z k p : Int) (hodd : p % 2 = 1) :
    mod_pRef (z + k * p) p = mod_pRef z p := by
  unfold mod_pRef
  rw [q_pRef_add_mul z k p hodd]
  ring

/-- For an odd modulus, reducing an addend first does not change the
centered residue of a sum. -/
lemma mod_pRef_mod_p_add (a b p : Int) (hodd : p % 2 = 1) :
    mod_pRef (mod_pRef a p + b) p = mod_pRef (a + b) p := by
  have h : mod_pRef a p + b = (a + b) + (-(q_pRef a p)) * p := by
    unfold mod_pRef
    ring
  rw [h, mod_pRef_add_mul _ _ _ hodd]

/-- For an odd modulus, reducing a factor first does not change the
centered residue of a product. -/
lemma mod_pRef_mod_p_mul (a b p : Int) (hodd : p % 2 = 1) :
    mod_pRef (mod_pRef a p * b) p = mod_pRef (a * b) p := by
  have h : mod_pRef a p * b = (a * b) + (-(q_pRef a p) * b) * p := by
    unfold mod_pRef
    ring
  rw [h, mod_pRef_add_mul _ _ _ hodd]

/-- Closed form of the XOR chain for an odd modulus: after `i + 1` steps
the accumulator holds `mod_pRef(ct * (i + 2), x0)`. -/
lemma xorChainValueRef_spec (ct x0 : Int) (hodd : x0 % 2 = 1) (i : Nat) :
    xorChainValueRef ct x0 (i + 1) = mod_pRef (ct * ((i : Int) + 2)) x0 := by
  induction i with
  | zero =>
    show mod_pRef (ct + ct) x0 = mod_pRef (ct * (((0 : Nat) : Int) + 2)) x0
    congr 1
    push_cast
    ring
  | succ j ih =>
    show mod_pRef (xorChainValueRef ct x0 (j + 1) + ct) x0 = _
    rw [ih, mod_pRef_mod_p_add _ _ _ hodd]
    congr 1
    push_cast
    ring

/-- Closed form of the AND chain for an odd modulus: after `i + 1` steps
the accumulator holds `mod_pRef(ct ^ (i + 2), x0)`. -/
lemma andChainValueRef_spec (ct x0 : Int) (hodd : x0 % 2 = 1) (i : Nat) :
    andChainValueRef ct x0 (i + 1) = mod_pRef (ct ^ (i + 2)) x0 := by
  induction i with
  | zero =>
    show mod_pRef (ct * ct) x0 = mod_pRef (ct ^ (0 + 2)) x0
    congr 1
    ring
  | succ j ih =>
    show mod_pRef (andChainValueRef ct x0 (j + 1) * ct) x0 = _
    rw [ih, mod_pRef_mod_p_mul _ _ _ hodd]
    congr 1

/-- Loop invariant of a chain of `test_operationsRef`: after `k` iterations
the counter is at most `k`, every counted step decrypted to the reference
value, a broken chain diverged exactly at step `num + 1`, and an unbroken
chain performed all `k` steps and holds the `k`-step chain value. -/
lemma runChainRef_inv (f : Int → Int) (sk orig c : Int) (k : Nat) :
    (runChainRef f sk orig k ⟨c, 0, false⟩).num ≤ k ∧
    (∀ i : Nat, 1 ≤ i → i ≤ (runChainRef f sk orig k ⟨c, 0, false⟩).num →
      decryptRef sk (chainValue f c i) = orig) ∧
    ((runChainRef f sk orig k ⟨c, 0, false⟩).broken = true →
      decryptRef sk
        (chainValue f c ((runChainRef f sk orig k ⟨c, 0, false⟩).num + 1)) ≠ orig) ∧
    ((runChainRef f sk orig k ⟨c, 0, false⟩).broken = false →
      (runChainRef f sk orig k ⟨c, 0, false⟩).num = k ∧
      (runChainRef f sk orig k ⟨c, 0, false⟩).current = chainValue f c k) := by
  induction k with
  | zero =>
    refine ⟨le_refl _, ?_, ?_, ?_⟩
    · intro i h1 h2
      rw [show (runChainRef f sk orig 0 (⟨c, 0, false⟩ : ChainState)).num = 0
        from rfl] at h2
      omega
    · intro hb
      exact Bool.noConfusion hb
    · intro _
      exact ⟨rfl, rfl⟩
  | succ n ih =>
    obtain ⟨ih1, ih2, ih3, ih4⟩ := ih
    set s := runChainRef f sk orig n ⟨c, 0, false⟩ with hs
    have hstep : runChainRef f sk orig (n + 1) ⟨c, 0, false⟩ = chainStepRef f sk orig s := rfl
    rw [hstep]
    by_cases hb : s.broken = true
    · have hcs : chainStepRef f sk orig s = s := by
        unfold chainStepRef
        rw [if_pos hb]
      rw [hcs]
      exact ⟨by omega, ih2, fun _ => ih3 hb,
        fun hf => by rw [hf] at hb; exact Bool.noConfusion hb⟩
    · have hbf : s.broken = false := by
        revert hb
        cases s.broken <;> simp
      obtain ⟨hnum, hcur⟩ := ih4 hbf
      have hcv : f s.current = chainValue f c (n + 1) := by
        rw [hcur]
        rfl
      by_cases hdec : decryptRef sk (f s.current) = orig
      · have hs' : chainStepRef f sk orig s = ⟨f s.current, s.num + 1, false⟩ := by
          unfold chainStepRef
          rw [if_neg hb, if_neg (not_not_intro hdec)]
        rw [hs']
        refine ⟨?_, ?_, ?_, ?_⟩
        · show s.num + 1 ≤ n + 1
          omega
        · intro i h1 h2
          have h2' : i ≤ s.num + 1 := h2
          rcases Nat.lt_or_ge i (s.num + 1) with hlt | hge
          · exact ih2 i h1 (by omega)
          · have hieq : i = n + 1 := by omega
            rw [hieq, ← hcv]
            exact hdec
        · intro hb'
          exact Bool.noConfusion hb'
        · intro _
          exact ⟨by show s.num + 1 = n + 1; omega, hcv⟩
      · have hs' : chainStepRef f sk orig s = ⟨f s.current, s.num, true⟩ := by
          unfold chainStepRef
          rw [if_neg hb, if_pos hdec]
        rw [hs']
        refine ⟨?_, ?_, ?_, ?_⟩
        · show s.num ≤ n + 1
          omega
        · exact ih2
        · intro _
          show decryptRef sk (chainValue f c (s.num + 1)) ≠ orig
          rw [show s.num = n from hnum, ← hcv]
          exact hdec
        · intro hb'
          exact Bool.noConfusion hb'

/-- One loop iteration never decreases the counter. -/
lemma chainStepRef_num_le (f : Int → Int) (sk orig : Int) (s : ChainState) :
    s.num ≤ (chainStepRef f sk orig s).num := by
  by_cases hb : s.broken = true
  · have h : chainStepRef f sk orig s = s := by
      unfold chainStepRef
      rw [if_pos hb]
    rw [h]
  · by_cases hd : decryptRef sk (f s.current) = orig
    · have h : chainStepRef f sk orig s = ⟨f s.current, s.num + 1, false⟩ := by
        unfold chainStepRef
        rw [if_neg hb, if_neg (not_not_intro hd)]
      rw [h]
      exact Nat.le_succ _
    · have h : chainStepRef f sk orig s = ⟨f s.current, s.num, true⟩ := by
        unfold chainStepRef
        rw [if_neg hb, if_pos hd]
      rw [h]

/-- The counter of a chain is monotone in the iteration budget. -/
lemma runChainRef_num_mono (f : Int → Int) (sk orig c : Int) (k1 k2 : Nat)
    (h : k1 ≤ k2) :
    (runChainRef f sk orig k1 ⟨c, 0, false⟩).num ≤
      (runChainRef f sk orig k2 ⟨c, 0, false⟩).num := by
  induction h with
  | refl => exact le_refl _
  | step h2 ih => exact le_trans ih (chainStepRef_num_le f sk orig _)

/-- Reading the sampled vector `x_values = [pk[1], ..., pk[tau]]` at
position `i - 1` gives `pk[i]` for `1 ≤ i ≤ tau` when `pk` is long
enough. -/
lemma x_values_getD (pk : List Int) (tau : Nat) (i : Nat)
    (h1 : 1 ≤ i) (h2 : i ≤ tau) (h3 : tau + 1 ≤ pk.length) :
    ((List.range tau).map (fun j => pk.getD (j + 1) 0)).getD (i - 1) 0 =
      pk.getD i 0 := by
  have hlt : i - 1 < tau := by omega
  rw [List.getD_eq_getElem?_getD, List.getElem?_map, List.getElem?_range hlt]
  rw [Option.map_some', Option.getD_some]
  have hi : i - 1 + 1 = i := by omega
  rw [hi]

lemma bitLenAux_zero (fuel : Nat) : bitLenAux fuel 0 = 0 := by
  cases fuel <;> simp [bitLenAux]

/-- Correctness of the fueled bit length: for `1 ≤ n ≤ fuel` it returns
the unique `L ≥ 1` with `2^(L-1) ≤ n < 2^L`. -/
lemma bitLenAux_spec : ∀ fuel n : Nat, n ≤ fuel → 1 ≤ n →
    1 ≤ bitLenAux fuel n ∧ 2 ^ (bitLenAux fuel n - 1) ≤ n ∧
      n < 2 ^ bitLenAux fuel n := by
  intro fuel
  induction fuel with
  | zero => intro n h1 h2; omega
  | succ f ih =>
    intro n hle h1
    rw [show bitLenAux (f + 1) n =
      if n = 0 then 0
      else if n < 4294967296 then bitLenAux f (n / 2) + 1
      else bitLenAux f (n / 4294967296) + 32 from rfl]
    rw [if_neg (by omega)]
    by_cases hsmall : n < 4294967296
    · rw [if_pos hsmall]
      rcases Nat.lt_or_ge n 2 with hn2 | hn2
      · have hn1 : n = 1 := by omega
        subst hn1
        norm_num [bitLenAux_zero]
      · have hd1 : 1 ≤ n / 2 := by omega
        have hdf : n / 2 ≤ f := by omega
        obtain ⟨g1, g2, g3⟩ := ih (n / 2) hdf hd1
        set l := bitLenAux f (n / 2) with hl
        refine ⟨by omega, ?_, ?_⟩
        · have e1 : l - 1 + 1 = l := by omega
          have e2 : (2 : Nat) ^ l = 2 ^ (l - 1) * 2 := by
            rw [← pow_succ, e1]
          simp only [Nat.add_sub_cancel]
          omega
        · have e2 : (2 : Nat) ^ (l + 1) = 2 ^ l * 2 := by rw [pow_succ]
          omega
    · rw [if_neg hsmall]
      have hd1 : 1 ≤ n / 4294967296 := by omega
      have hdf : n / 4294967296 ≤ f := by omega
      obtain ⟨g1, g2, g3⟩ := ih (n / 4294967296) hdf hd1
      set l := bitLenAux f (n / 4294967296) with hl
      refine ⟨by omega, ?_, ?_⟩
      · have e1 : l + 32 - 1 = l - 1 + 32 := by omega
        have e2 : (2 : Nat) ^ (l - 1 + 32) = 2 ^ (l - 1) * 4294967296 := by
          rw [pow_add]
          norm_num
        rw [e1, e2]
        omega
      · have e2 : (2 : Nat) ^ (l + 32) = 2 ^ l * 4294967296 := by
          rw [pow_add]
          norm_num
        rw [e2]
        omega

/-- `bitLen n` brackets `n` between consecutive powers of two. -/
lemma bitLen_spec (n : Nat) (h : 1 ≤ n) :
    1 ≤ bitLen n ∧ 2 ^ (bitLen n - 1) ≤ n ∧ n < 2 ^ bitLen n :=
  bitLenAux_spec n n (le_refl n) h

lemma pow2_eq (k : Nat) : pow2 k = (2 : Int) ^ k := by
  unfold pow2
  push_cast
  ring

lemma pow2_pos (k : Nat) : 0 < pow2 k := by
  rw [pow2_eq]
  positivity

lemma pow2_add (m n : Nat) : pow2 (m + n) = pow2 m * pow2 n := by
  rw [pow2_eq, pow2_eq, pow2_eq, pow_add]

/-- Uniqueness of the round-half-even quotient: any integer `Q` whose
residue `w - Q * p` is within half of `|p|`, and which is even in the
exact-tie case, is the rounded quotient. -/
lemma q_pRef_unique (w p Q : Int) (hp : p ≠ 0)
    (hb : 2 * |w - Q * p| ≤ |p|)
    (ht : 2 * |w - Q * p| = |p| → Q % 2 = 0) :
    Q = q_pRef w p := by
  set Q' := q_pRef w p with hQ'
  have hb' : 2 * |w - Q' * p| ≤ |p| := mod_pRef_abs_bound w p hp
  by_contra hne
  have hd : Q - Q' ≠ 0 := fun h => hne (by omega)
  have key : |Q - Q'| * |p| ≤ |w - Q' * p| + |w - Q * p| := by
    have h1 : (Q - Q') * p = (w - Q' * p) - (w - Q * p) := by ring
    calc |Q - Q'| * |p| = |(Q - Q') * p| := (abs_mul _ _).symm
      _ = |(w - Q' * p) - (w - Q * p)| := by rw [h1]
      _ ≤ |w - Q' * p| + |w - Q * p| := abs_sub _ _
  have habs1 : 1 ≤ |Q - Q'| := Int.one_le_abs hd
  have hppos : 0 < |p| := abs_pos.mpr hp
  have hone : 1 * |p| ≤ |Q - Q'| * |p| :=
    mul_le_mul_of_nonneg_right habs1 (abs_nonneg p)
  have hQeq1 : 2 * |w - Q * p| = |p| := by linarith
  have hQeq2 : 2 * |w - Q' * p| = |p| := by linarith
  have hQe := ht hQeq1
  have hQ'e := mod_pRef_tie_even w p hp hQeq2
  have habs2 : |Q - Q'| ≤ 1 := by
    by_contra hgt
    have h2 : 2 ≤ |Q - Q'| := by omega
    have h3 : 2 * |p| ≤ |Q - Q'| * |p| :=
      mul_le_mul_of_nonneg_right h2 (abs_nonneg p)
    linarith
  have hdiff : Q - Q' = 1 ∨ Q - Q' = -1 := by
    rcases abs_cases (Q - Q') with ⟨h, _⟩ | ⟨h, _⟩ <;> omega
  omega

/-- Rounding an exact multiple returns its cofactor. -/
lemma q_pRef_mul_self (V b : Int) (hb : b ≠ 0) : q_pRef (V * b) b = V := by
  refine (q_pRef_unique (V * b) b V hb ?_ ?_).symm
  · simp [abs_nonneg]
  · intro h
    simp at h
    exact absurd (abs_eq_zero.mp (by omega)) hb

/-- Round-half-even is odd-symmetric in the dividend. -/
lemma q_pRef_neg_left (w p : Int) (hp : p ≠ 0) :
    q_pRef (-w) p = - q_pRef w p := by
  refine (q_pRef_unique (-w) p (-(q_pRef w p)) hp ?_ ?_).symm
  · have h1 : -w - -(q_pRef w p) * p = -(w - q_pRef w p * p) := by ring
    rw [h1, abs_neg]
    exact mod_pRef_abs_bound w p hp
  · intro h
    have h1 : -w - -(q_pRef w p) * p = -(w - q_pRef w p * p) := by ring
    rw [h1, abs_neg] at h
    have := mod_pRef_tie_even w p hp h
    omega

/-- Scaling the dividend by a positive factor of the modulus leaves the
rounded quotient unchanged (the underlying rational is the same). -/
lemma q_pRef_mul_left (c n D : Int) (hc : 0 < c) (hD : D ≠ 0) :
    q_pRef (c * n) (c * D) = q_pRef n D := by
  have hcD : c * D ≠ 0 := mul_ne_zero (by omega) hD
  have h1 : c * n - q_pRef n D * (c * D) = c * (n - q_pRef n D * D) := by
    ring
  have hb : 2 * |n - q_pRef n D * D| ≤ |D| := mod_pRef_abs_bound n D hD
  refine (q_pRef_unique (c * n) (c * D) (q_pRef n D) hcD ?_ ?_).symm
  · have h2 : c * (2 * |n - q_pRef n D * D|) ≤ c * |D| :=
      mul_le_mul_of_nonneg_left hb (by omega)
    calc 2 * |c * n - q_pRef n D * (c * D)|
        = c * (2 * |n - q_pRef n D * D|) := by
          rw [h1, abs_mul, abs_of_pos hc]
          ring
      _ ≤ c * |D| := h2
      _ = |c * D| := by rw [abs_mul, abs_of_pos hc]
  · intro h
    rw [h1, abs_mul, abs_of_pos hc, abs_mul, abs_of_pos hc] at h
    have hc' : c ≠ 0 := by omega
    have h3 : c * (2 * |n - q_pRef n D * D|) = c * |D| := by linarith
    have h2 : 2 * |n - q_pRef n D * D| = |D| := mul_left_cancel₀ hc' h3
    exact mod_pRef_tie_even n D hD h2

/-- Sign decomposition of the exact rounded quotient. -/
lemma q_pRef_sign (z p : Int) (hz : z ≠ 0) (hp : p ≠ 0) :
    q_pRef z p =
      (if (0 < z ∧ 0 < p) ∨ (z < 0 ∧ p < 0) then 1 else -1) *
        q_pRef (z.natAbs : Int) (p.natAbs : Int) := by
  have haz : (z.natAbs : Int) = |z| := (Int.abs_eq_natAbs z).symm
  have hap : (p.natAbs : Int) = |p| := (Int.abs_eq_natAbs p).symm
  rcases hz.lt_or_lt with hzn | hzp <;> rcases hp.lt_or_lt with hpn | hpp
  · rw [if_pos (Or.inr ⟨hzn, hpn⟩), haz, hap, abs_of_neg hzn, abs_of_neg hpn,
      one_mul]
    exact (q_pRef_neg_neg z p).symm
  · rw [if_neg (by omega), haz, hap, abs_of_neg hzn, abs_of_pos hpp,
      q_pRef_neg_left z p hp]
    ring
  · rw [if_neg (by omega), haz, hap, abs_of_pos hzp, abs_of_neg hpn]
    have h1 : q_pRef z p = q_pRef (-z) (-p) := (q_pRef_neg_neg z p).symm
    rw [h1, q_pRef_neg_left z (-p) (by omega)]
    ring
  · rw [if_pos (Or.inl ⟨hzp, hpp⟩), haz, hap, abs_of_pos hzp, abs_of_pos hpp,
      one_mul]


lemma pow2_zero : pow2 0 = 1 := rfl

lemma pow2_one : pow2 1 = 2 := rfl

/-- `floatExp a b` is the binade exponent of `a / b`: integrally,
`2^e ≤ a/b < 2^(e+1)` with denominators cleared through `toNat`
exponents (one of the two is always `0`). -/
lemma floatExp_spec (a b : Int) (ha : 0 < a) (hb : 0 < b) :
    b * pow2 (floatExp a b).toNat ≤ a * pow2 (-(floatExp a b)).toNat ∧
    a * pow2 (-(floatExp a b)).toNat < 2 * (b * pow2 (floatExp a b).toNat) := by
  obtain ⟨La1, La2, La3⟩ := bitLen_spec a.toNat (by omega)
  obtain ⟨Lb1, Lb2, Lb3⟩ := bitLen_spec b.toNat (by omega)
  have haInt : (a.toNat : Int) = a := Int.toNat_of_nonneg (by omega)
  have hbInt : (b.toNat : Int) = b := Int.toNat_of_nonneg (by omega)
  have hA1 : pow2 (bitLen a.toNat - 1) ≤ a := by
    rw [pow2, ← haInt]
    exact_mod_cast La2
  have hA2 : a < pow2 (bitLen a.toNat) := by
    rw [pow2, ← haInt]
    exact_mod_cast La3
  have hB1 : pow2 (bitLen b.toNat - 1) ≤ b := by
    rw [pow2, ← hbInt]
    exact_mod_cast Lb2
  have hB2 : b < pow2 (bitLen b.toNat) := by
    rw [pow2, ← hbInt]
    exact_mod_cast Lb3
  unfold floatExp floatLogDiff
  set La := bitLen a.toNat with hLa
  set Lb := bitLen b.toNat with hLb
  by_cases hcond : b * pow2 ((La : Int) - (Lb : Int)).toNat ≤
      a * pow2 (-((La : Int) - (Lb : Int))).toNat
  · rw [if_pos hcond]
    refine ⟨hcond, ?_⟩
    rcases le_or_lt (Lb : Int) (La : Int) with hd | hd
    · have e1 : ((La : Int) - (Lb : Int)).toNat = La - Lb := by omega
      have e2 : (-((La : Int) - (Lb : Int))).toNat = 0 := by omega
      rw [e1, e2]
      have hsplit : pow2 La = 2 * (pow2 (Lb - 1) * pow2 (La - Lb)) := by
        have h1 : pow2 (1 + (Lb - 1) + (La - Lb)) =
            pow2 1 * pow2 (Lb - 1) * pow2 (La - Lb) := by
          rw [pow2_add, pow2_add]
        have h2 : 1 + (Lb - 1) + (La - Lb) = La := by omega
        rw [h2] at h1
        rw [h1, pow2_one]
        ring
      have h1 : pow2 (Lb - 1) * pow2 (La - Lb) ≤ b * pow2 (La - Lb) :=
        mul_le_mul_of_nonneg_right hB1 (le_of_lt (pow2_pos _))
      calc a * pow2 0 = a := by rw [pow2_zero, mul_one]
        _ < pow2 La := hA2
        _ = 2 * (pow2 (Lb - 1) * pow2 (La - Lb)) := hsplit
        _ ≤ 2 * (b * pow2 (La - Lb)) := by linarith
    · have e1 : ((La : Int) - (Lb : Int)).toNat = 0 := by omega
      have e2 : (-((La : Int) - (Lb : Int))).toNat = Lb - La := by omega
      rw [e1, e2]
      have hsplit : pow2 La * pow2 (Lb - La) = 2 * pow2 (Lb - 1) := by
        rw [← pow2_add, show La + (Lb - La) = Lb - 1 + 1 from by omega,
          pow2_add, pow2_one]
        ring
      have h1 : a * pow2 (Lb - La) < pow2 La * pow2 (Lb - La) :=
        mul_lt_mul_of_pos_right hA2 (pow2_pos _)
      have h2 : pow2 (Lb - 1) ≤ b := hB1
      calc a * pow2 (Lb - La) < pow2 La * pow2 (Lb - La) := h1
        _ = 2 * pow2 (Lb - 1) := hsplit
        _ ≤ 2 * b := by linarith
        _ = 2 * (b * pow2 0) := by rw [pow2_zero, mul_one]
  · rw [if_neg hcond]
    push_neg at hcond
    rcases le_or_lt (Lb : Int) ((La : Int) - 1) with hd | hd
    · have e1 : ((La : Int) - (Lb : Int)).toNat = La - Lb := by omega
      have e2 : (-((La : Int) - (Lb : Int))).toNat = 0 := by omega
      rw [e1, e2] at hcond
      have e3 : ((La : Int) - (Lb : Int) - 1).toNat = La - Lb - 1 := by omega
      have e4 : (-((La : Int) - (Lb : Int) - 1)).toNat = 0 := by omega
      rw [e3, e4]
      constructor
      · have hsplit : pow2 Lb * pow2 (La - Lb - 1) = pow2 (La - 1) := by
          rw [← pow2_add]
          congr 1
          omega
        have h1 : b * pow2 (La - Lb - 1) < pow2 Lb * pow2 (La - Lb - 1) :=
          mul_lt_mul_of_pos_right hB2 (pow2_pos _)
        rw [hsplit] at h1
        have h2 : pow2 (La - 1) ≤ a := hA1
        rw [pow2_zero, mul_one]
        linarith
      · have hsplit : pow2 (La - Lb) = 2 * pow2 (La - Lb - 1) := by
          have h1 : pow2 (1 + (La - Lb - 1)) = pow2 1 * pow2 (La - Lb - 1) :=
            pow2_add 1 (La - Lb - 1)
          have h2 : 1 + (La - Lb - 1) = La - Lb := by omega
          rw [h2] at h1
          rw [h1, pow2_one]
        rw [hsplit] at hcond
        have h1 : b * (2 * pow2 (La - Lb - 1)) = 2 * (b * pow2 (La - Lb - 1)) := by
          ring
        linarith
    · have e1 : ((La : Int) - (Lb : Int)).toNat = 0 := by omega
      have e2 : (-((La : Int) - (Lb : Int))).toNat = Lb - La := by omega
      rw [e1, e2] at hcond
      have e3 : ((La : Int) - (Lb : Int) - 1).toNat = 0 := by omega
      have e4 : (-((La : Int) - (Lb : Int) - 1)).toNat = Lb - La + 1 := by omega
      rw [e3, e4]
      constructor
      · have hsplit : pow2 (La - 1) * pow2 (Lb - La + 1) = pow2 Lb := by
          rw [← pow2_add]
          congr 1
          omega
        have h1 : pow2 (La - 1) * pow2 (Lb - La + 1) ≤ a * pow2 (Lb - La + 1) :=
          mul_le_mul_of_nonneg_right hA1 (le_of_lt (pow2_pos _))
        rw [hsplit] at h1
        have h2 : b < pow2 Lb := hB2
        rw [pow2_zero, mul_one]
        linarith
      · have hsplit : pow2 (Lb - La + 1) = 2 * pow2 (Lb - La) := by
          rw [show Lb - La + 1 = Lb - La + 1 from rfl, pow2_add, pow2_one]
          ring
        rw [pow2_zero, mul_one] at hcond
        have h1 : a * pow2 (Lb - La + 1) = 2 * (a * pow2 (Lb - La)) := by
          rw [hsplit]
          ring
        rw [pow2_zero, mul_one, h1]
        linarith

/-- Within double precision (`a < 2^52`) the binade exponent stays at
most `51`. -/
lemma floatExp_le_51 (a b : Int) (ha : 0 < a) (hb : 0 < b)
    (hsize : a < pow2 52) : floatExp a b ≤ 51 := by
  by_contra h
  push_neg at h
  obtain ⟨hlow, _⟩ := floatExp_spec a b ha hb
  set e := floatExp a b with hedef
  have e2 : (-e).toNat = 0 := by omega
  rw [e2, pow2_zero, mul_one] at hlow
  have h52 : pow2 52 ≤ pow2 e.toNat := by
    rw [pow2_eq, pow2_eq]
    exact pow_le_pow_right₀ (by omega) (by omega)
  have hmul : pow2 e.toNat ≤ b * pow2 e.toNat :=
    le_mul_of_one_le_left (le_of_lt (pow2_pos _)) (by omega)
  linarith

/-- Lower binade inequality in the form used by the mantissa analysis:
`b * 2^52 ≤ a * 2^(52 - e)` when `e ≤ 51`. -/
lemma floatExp_lower52 (a b : Int) (ha : 0 < a) (hb : 0 < b)
    (he : floatExp a b ≤ 51) :
    b * pow2 52 ≤ a * pow2 (52 - floatExp a b).toNat := by
  obtain ⟨hlow, _⟩ := floatExp_spec a b ha hb
  set e := floatExp a b with hedef
  rcases le_or_lt 0 e with h0 | h0
  · have e2 : (-e).toNat = 0 := by omega
    rw [e2, pow2_zero, mul_one] at hlow
    have hsplit : pow2 e.toNat * pow2 (52 - e).toNat = pow2 52 := by
      rw [← pow2_add]
      congr 1
      omega
    have h1 := mul_le_mul_of_nonneg_right hlow (le_of_lt (pow2_pos (52 - e).toNat))
    calc b * pow2 52 = b * pow2 e.toNat * pow2 (52 - e).toNat := by
          rw [mul_assoc, hsplit]
      _ ≤ a * pow2 (52 - e).toNat := h1
  · have e3 : e.toNat = 0 := by omega
    rw [e3, pow2_zero, mul_one] at hlow
    have hsplit : pow2 (-e).toNat * pow2 52 = pow2 (52 - e).toNat := by
      rw [← pow2_add]
      congr 1
      omega
    have h1 := mul_le_mul_of_nonneg_right hlow (le_of_lt (pow2_pos 52))
    calc b * pow2 52 ≤ a * pow2 (-e).toNat * pow2 52 := h1
      _ = a * pow2 (52 - e).toNat := by rw [mul_assoc, hsplit]

/-- In the subnormal branch (`e < -1022`) the quotient is far below one:
`a * 2^1022 < b`. -/
lemma floatExp_subnormal (a b : Int) (ha : 0 < a) (hb : 0 < b)
    (he : floatExp a b < -1022) : a * pow2 1022 < b := by
  obtain ⟨_, hup⟩ := floatExp_spec a b ha hb
  set e := floatExp a b with hedef
  have e3 : e.toNat = 0 := by omega
  rw [e3, pow2_zero, mul_one] at hup
  have h1 : pow2 1023 ≤ pow2 (-e).toNat := by
    rw [pow2_eq, pow2_eq]
    exact pow_le_pow_right₀ (by omega) (by omega)
  have h2 : pow2 1023 = 2 * pow2 1022 := by
    rw [show (1023 : Nat) = 1022 + 1 from rfl, pow2_add, pow2_one]
    ring
  have h3 : a * pow2 1023 ≤ a * pow2 (-e).toNat :=
    mul_le_mul_of_nonneg_left h1 (by omega)
  have h4 : a * pow2 1023 = 2 * (a * pow2 1022) := by
    rw [h2]
    ring
  linarith

lemma q_pRef_zero (p : Int) : q_pRef 0 p = 0 := by
  unfold q_pRef roundHalfEvenPos
  split_ifs with h1 h2 h3 h4 h5 h6 <;>
    simp_all [Int.zero_emod, Int.zero_ediv]

/-- The double-rounding innocuity core: rounding `a / b` first to the
53-bit grid (significand `m` at scale `2^s`, `s = 52 - e ≥ 1`) and then
to an integer gives the same result as rounding `a / b` directly,
provided the dividend is within double precision (`a < 2^52`) and the
scaled quotient sits in the normalised range (`b * 2^52 ≤ a * 2^s`). -/
lemma double_round_agree (a b : Int) (s : Nat) (ha : 0 < a) (hb : 0 < b)
    (hs : 1 ≤ s) (hsize : a < pow2 52)
    (hbin : b * pow2 52 ≤ a * pow2 s) :
    q_pRef (q_pRef (a * pow2 s) b) (pow2 s) = q_pRef a b := by
  have hP : 0 < pow2 s := pow2_pos s
  have hblt : b < pow2 s := by
    have h1 : a * pow2 s < pow2 52 * pow2 s :=
      mul_lt_mul_of_pos_right hsize hP
    have h2 : b * pow2 52 < pow2 s * pow2 52 := by
      have e : pow2 52 * pow2 s = pow2 s * pow2 52 := mul_comm _ _
      linarith
    exact lt_of_mul_lt_mul_right h2 (le_of_lt (pow2_pos 52))
  set K := q_pRef a b with hK
  set m := q_pRef (a * pow2 s) b with hm
  have hKb : 2 * |a - K * b| ≤ b := by
    have := mod_pRef_abs_bound a b (by omega)
    rwa [abs_of_pos hb] at this
  have hmb : 2 * |a * pow2 s - m * b| ≤ b := by
    have := mod_pRef_abs_bound (a * pow2 s) b (by omega)
    rwa [abs_of_pos hb] at this
  by_cases htie : 2 * |a - K * b| = b
  · -- exact tie: a/b = K ± 1/2, so the scaled quotient is an exact
    -- multiple of b and no information is lost in the first rounding
    have hKeven : K % 2 = 0 :=
      mod_pRef_tie_even a b (by omega) (by rw [abs_of_pos hb]; exact htie)
    obtain ⟨s', rfl⟩ : ∃ s', s = s' + 1 := ⟨s - 1, by omega⟩
    have hps : pow2 (s' + 1) = 2 * pow2 s' := by
      have h1 : pow2 (s' + 1) = pow2 s' * pow2 1 := pow2_add s' 1
      rw [h1, pow2_one]
      ring
    rcases abs_cases (a - K * b) with ⟨hc, _⟩ | ⟨hc, _⟩
    · have h2t : 2 * (a - K * b) = b := by omega
      have hA : a * pow2 (s' + 1) = (K * pow2 (s' + 1) + pow2 s') * b := by
        have h3 : 2 * (a * pow2 (s' + 1)) =
            2 * ((K * pow2 (s' + 1) + pow2 s') * b) := by
          rw [hps]
          linear_combination (2 * pow2 s') * h2t
        exact mul_left_cancel₀ (by norm_num : (2 : Int) ≠ 0) h3
      have hmV : m = K * pow2 (s' + 1) + pow2 s' := by
        rw [hm, hA]
        exact q_pRef_mul_self _ b (by omega)
      refine (q_pRef_unique m (pow2 (s' + 1)) K (ne_of_gt (pow2_pos _)) ?_ ?_).symm
      · have habs : |m - K * pow2 (s' + 1)| = pow2 s' := by
          rw [hmV, show K * pow2 (s' + 1) + pow2 s' - K * pow2 (s' + 1) = pow2 s'
            from by ring]
          exact abs_of_pos (pow2_pos s')
        rw [habs, abs_of_pos (pow2_pos (s' + 1)), hps]
      · intro _
        exact hKeven
    · have h2t : 2 * (a - K * b) = -b := by omega
      have hA : a * pow2 (s' + 1) = (K * pow2 (s' + 1) - pow2 s') * b := by
        have h3 : 2 * (a * pow2 (s' + 1)) =
            2 * ((K * pow2 (s' + 1) - pow2 s') * b) := by
          rw [hps]
          linear_combination (2 * pow2 s') * h2t
        exact mul_left_cancel₀ (by norm_num : (2 : Int) ≠ 0) h3
      have hmV : m = K * pow2 (s' + 1) - pow2 s' := by
        rw [hm, hA]
        exact q_pRef_mul_self _ b (by omega)
      refine (q_pRef_unique m (pow2 (s' + 1)) K (ne_of_gt (pow2_pos _)) ?_ ?_).symm
      · have habs : |m - K * pow2 (s' + 1)| = pow2 s' := by
          rw [hmV, show K * pow2 (s' + 1) - pow2 s' - K * pow2 (s' + 1) = -(pow2 s')
            from by ring, abs_neg]
          exact abs_of_pos (pow2_pos s')
        rw [habs, abs_of_pos (pow2_pos (s' + 1)), hps]
      · intro _
        exact hKeven
  · -- strict case: the quotient is bounded away from every half-integer
    -- by at least 1/(2b), and b < 2^s makes the grid error too small to
    -- cross a boundary
    have hstr : 2 * |a - K * b| ≤ b - 1 := by
      omega
    have hid : b * (m - K * pow2 s) =
        (m * b - a * pow2 s) + pow2 s * (a - K * b) := by
      ring
    have htri : |b * (m - K * pow2 s)| ≤
        |m * b - a * pow2 s| + |pow2 s * (a - K * b)| := by
      rw [hid]
      exact abs_add _ _
    have hx : |m * b - a * pow2 s| = |a * pow2 s - m * b| := abs_sub_comm _ _
    have hy : |pow2 s * (a - K * b)| = pow2 s * |a - K * b| := by
      rw [abs_mul, abs_of_pos hP]
    have hz : |b * (m - K * pow2 s)| = b * |m - K * pow2 s| := by
      rw [abs_mul, abs_of_pos hb]
    have hchain : 2 * (b * |m - K * pow2 s|) ≤ b + pow2 s * (b - 1) := by
      have h1 : 2 * (pow2 s * |a - K * b|) ≤ pow2 s * (b - 1) := by
        have := mul_le_mul_of_nonneg_left hstr (le_of_lt hP)
        linarith
      rw [← hz]
      calc 2 * |b * (m - K * pow2 s)|
          ≤ 2 * (|m * b - a * pow2 s| + |pow2 s * (a - K * b)|) := by linarith
        _ = 2 * |a * pow2 s - m * b| + 2 * (pow2 s * |a - K * b|) := by
            rw [hx, hy]
            ring
        _ ≤ b + pow2 s * (b - 1) := by linarith
    have hfinal : 2 * |m - K * pow2 s| < pow2 s := by
      have h2 : b + pow2 s * (b - 1) < pow2 s * b := by nlinarith
      have h3 : 2 * (b * |m - K * pow2 s|) < pow2 s * b := by linarith
      have h4 : b * (2 * |m - K * pow2 s|) < b * pow2 s := by
        have e : pow2 s * b = b * pow2 s := mul_comm _ _
        linarith
      exact lt_of_mul_lt_mul_left h4 (by omega)
    refine (q_pRef_unique m (pow2 s) K (ne_of_gt hP) ?_ ?_).symm
    · rw [abs_of_pos hP]
      linarith
    · intro h
      rw [abs_of_pos hP] at h
      omega

/-- For a dividend within double precision, the correctly rounded double
of `a / b` exists (no overflow) and rounds back to the exact
round-half-even quotient. -/
lemma floatDivPos_round (a b : Int) (ha : 0 < a) (hb : 0 < b)
    (hsize : a < pow2 52) :
    ∃ num : Int, ∃ k : Nat, floatDivPos a b = some (num, k) ∧
      q_pRef num (pow2 k) = q_pRef a b := by
  have he51 := floatExp_le_51 a b ha hb hsize
  unfold floatDivPos
  by_cases hsub : floatExp a b < -1022
  · rw [if_pos hsub]
    refine ⟨_, _, rfl, ?_⟩
    have hfar : a * pow2 1022 < b := floatExp_subnormal a b ha hb hsub
    have hp4 : (4 : Int) ≤ pow2 1022 := by
      rw [pow2_eq]
      calc (4 : Int) = 2 ^ 2 := by norm_num
        _ ≤ 2 ^ 1022 := pow_le_pow_right₀ (by omega) (by omega)
    have hb4 : 4 * a < b := by nlinarith
    have hK : q_pRef a b = 0 := by
      refine (q_pRef_unique a b 0 (by omega) ?_ ?_).symm
      · rw [show a - 0 * b = a from by ring, abs_of_pos ha, abs_of_pos hb]
        omega
      · intro h
        rw [show a - 0 * b = a from by ring, abs_of_pos ha, abs_of_pos hb] at h
        omega
    rw [hK, ← q_pRef_of_pos _ _ hb]
    set m' := q_pRef (a * pow2 1074) b with hm'
    have hA' : 0 < a * pow2 1074 := mul_pos ha (pow2_pos 1074)
    have hmb' : 2 * |a * pow2 1074 - m' * b| ≤ b := by
      have := mod_pRef_abs_bound (a * pow2 1074) b (by omega)
      rwa [abs_of_pos hb] at this
    have hm'0 : 0 ≤ m' := by
      by_contra hneg
      push_neg at hneg
      have h1 : m' ≤ -1 := by omega
      have h2 : m' * b ≤ -1 * b := mul_le_mul_of_nonneg_right h1 (by omega)
      have h3 : a * pow2 1074 - m' * b ≤ |a * pow2 1074 - m' * b| :=
        le_abs_self _
      linarith
    have h2m : 2 * (m' * b) ≤ 2 * (a * pow2 1074) + b := by
      have h3 : -(a * pow2 1074 - m' * b) ≤ |a * pow2 1074 - m' * b| :=
        neg_le_abs _
      linarith
    have hP2 : (2 : Int) ≤ pow2 1074 := by
      rw [pow2_eq]
      calc (2 : Int) = 2 ^ 1 := by norm_num
        _ ≤ 2 ^ 1074 := pow_le_pow_right₀ (by omega) (by omega)
    have hfinal : 2 * m' < pow2 1074 := by
      have h5 : 2 * (a * pow2 1074) + b < pow2 1074 * b := by nlinarith
      have h6 : 2 * (m' * b) < pow2 1074 * b := by linarith
      have h7 : b * (2 * m') < b * pow2 1074 := by
        have e1 : 2 * (m' * b) = b * (2 * m') := by ring
        have e2 : pow2 1074 * b = b * pow2 1074 := by ring
        linarith
      exact lt_of_mul_lt_mul_left h7 (by omega)
    refine (q_pRef_unique m' (pow2 1074) 0 (ne_of_gt (pow2_pos _)) ?_ ?_).symm
    · rw [show m' - 0 * pow2 1074 = m' from by ring, abs_of_nonneg hm'0,
        abs_of_pos (pow2_pos 1074)]
      omega
    · intro h
      rw [show m' - 0 * pow2 1074 = m' from by ring, abs_of_nonneg hm'0,
        abs_of_pos (pow2_pos 1074)] at h
      omega
  · rw [if_neg hsub]
    push_neg at hsub
    have hovf : ¬(1023 < floatExp a b +
        (if floatMant a b = pow2 53 then 1 else 0)) := by
      by_cases h : floatMant a b = pow2 53
      · rw [if_pos h]
        omega
      · rw [if_neg h]
        omega
    rw [if_neg hovf, if_neg (by omega : ¬(52 ≤ floatExp a b))]
    refine ⟨_, _, rfl, ?_⟩
    have hmant : floatMant a b = q_pRef (a * pow2 (52 - floatExp a b).toNat) b := by
      unfold floatMant
      rw [show (floatExp a b - 52).toNat = 0 from by omega, pow2_zero, mul_one]
      exact (q_pRef_of_pos _ _ hb).symm
    rw [hmant]
    exact double_round_agree a b ((52 - floatExp a b).toNat) ha hb (by omega)
      hsize (floatExp_lower52 a b ha hb he51)

/-- Agreement of the two layers: for dividends within double precision
the program's float-based `round(z / p)` returns exactly the reference
round-half-even quotient (and raises no error for `p ≠ 0`). -/
theorem q_p_eq_ref (z p : Int) (hp : p ≠ 0) (hz : z.natAbs < 2 ^ 52) :
    q_p z p = some (q_pRef z p) := by
  unfold q_p
  rw [if_neg hp]
  by_cases hz0 : z = 0
  · rw [if_pos hz0, hz0, q_pRef_zero]
  · rw [if_neg hz0]
    have ha : 0 < (z.natAbs : Int) := by
      have := Int.natAbs_pos.mpr hz0
      omega
    have hb : 0 < (p.natAbs : Int) := by
      have := Int.natAbs_pos.mpr hp
      omega
    have hsize : (z.natAbs : Int) < pow2 52 := by
      rw [pow2]
      exact_mod_cast hz
    obtain ⟨num, k, hfd, hq⟩ :=
      floatDivPos_round (z.natAbs : Int) (p.natAbs : Int) ha hb hsize
    rw [hfd]
    show some ((if (0 < z ∧ 0 < p) ∨ (z < 0 ∧ p < 0) then 1 else -1) *
      roundHalfEvenPos num (pow2 k)) = some (q_pRef z p)
    congr 1
    rw [q_pRef_sign z p hz0 hp]
    congr 1
    rw [← q_pRef_of_pos num (pow2 k) (pow2_pos k)]
    exact hq

/-- Source `mod_p` agrees with the reference for dividends within double
precision. -/
lemma mod_p_eq_ref (z p : Int) (hp : p ≠ 0) (hz : z.natAbs < 2 ^ 52) :
    mod_p z p = some (mod_pRef z p) := by
  unfold mod_p
  rw [q_p_eq_ref z p hp hz]
  rfl

/-- The centered residue never exceeds the dividend in magnitude
(`q_pRef z p * p` is at least as close to `z` as the multiple `0`). -/
lemma mod_pRef_natAbs_le_self (z p : Int) (hp : p ≠ 0) :
    (mod_pRef z p).natAbs ≤ z.natAbs := by
  have h := mod_pRef_nearest z p 0 hp
  rw [show z - 0 * p = z from by ring] at h
  have h2 : |mod_pRef z p| ≤ |z| := h
  rw [Int.abs_eq_natAbs, Int.abs_eq_natAbs] at h2
  exact_mod_cast h2

/-- The centered residue never exceeds the modulus in magnitude. -/
lemma mod_pRef_natAbs_le_mod (z p : Int) (hp : p ≠ 0) :
    (mod_pRef z p).natAbs ≤ p.natAbs := by
  have h := mod_pRef_abs_bound z p hp
  have h2 : |mod_pRef z p| ≤ |p| := by
    have := abs_nonneg (mod_pRef z p)
    linarith
  rw [Int.abs_eq_natAbs, Int.abs_eq_natAbs] at h2
  exact_mod_cast h2

/-- Source `decrypt` agrees with the reference for ciphertexts within
double precision (the inner residue is no larger than the ciphertext,
so the outer reduction modulo `2` is within precision as well). -/
lemma decrypt_eq_ref (sk c : Int) (hsk : sk ≠ 0) (hc : c.natAbs < 2 ^ 52) :
    decrypt sk c = some (decryptRef sk c) := by
  unfold decrypt
  rw [mod_p_eq_ref c sk hsk hc]
  show mod_p (mod_pRef c sk) 2 = some (decryptRef sk c)
  have h2 : (mod_pRef c sk).natAbs < 2 ^ 52 :=
    lt_of_le_of_lt (mod_pRef_natAbs_le_self c sk hsk) hc
  rw [mod_p_eq_ref _ 2 (by omega) h2]
  rfl

/-- One XOR accumulation step agrees with the reference and preserves the
size invariant, for bounded ciphertext and modulus. -/
lemma xor_step_agree (ct x0 : Int) (hx0 : x0 ≠ 0)
    (hct : ct.natAbs ≤ 2 ^ 25) (hx : x0.natAbs ≤ 2 ^ 25) :
    ∀ v : Int, v.natAbs ≤ 2 ^ 25 →
      homomorphic_xor v ct x0 = some (homomorphic_xorRef v ct x0) ∧
      (homomorphic_xorRef v ct x0).natAbs ≤ 2 ^ 25 := by
  intro v hv
  have hlit : (2 : Nat) ^ 25 + 2 ^ 25 < 2 ^ 52 := by norm_num
  have harg : (v + ct).natAbs < 2 ^ 52 := by
    have := Int.natAbs_add_le v ct
    omega
  refine ⟨mod_p_eq_ref (v + ct) x0 hx0 harg, ?_⟩
  show (mod_pRef (v + ct) x0).natAbs ≤ 2 ^ 25
  have := mod_pRef_natAbs_le_mod (v + ct) x0 hx0
  omega

/-- One AND accumulation step agrees with the reference and preserves the
size invariant, for bounded ciphertext and modulus. -/
lemma and_step_agree (ct x0 : Int) (hx0 : x0 ≠ 0)
    (hct : ct.natAbs ≤ 2 ^ 25) (hx : x0.natAbs ≤ 2 ^ 25) :
    ∀ v : Int, v.natAbs ≤ 2 ^ 25 →
      homomorphic_and v ct x0 = some (homomorphic_andRef v ct x0) ∧
      (homomorphic_andRef v ct x0).natAbs ≤ 2 ^ 25 := by
  intro v hv
  have h1 : (v * ct).natAbs = v.natAbs * ct.natAbs := Int.natAbs_mul v ct
  have h2 : v.natAbs * ct.natAbs ≤ 2 ^ 25 * 2 ^ 25 := Nat.mul_le_mul hv hct
  have h3 : (2 : Nat) ^ 25 * 2 ^ 25 < 2 ^ 52 := by norm_num
  have harg : (v * ct).natAbs < 2 ^ 52 := by omega
  refine ⟨mod_p_eq_ref (v * ct) x0 hx0 harg, ?_⟩
  show (mod_pRef (v * ct) x0).natAbs ≤ 2 ^ 25
  have := mod_pRef_natAbs_le_mod (v * ct) x0 hx0
  omega

/-- Chain values of the source layer agree with the reference under a
step-agreement invariant. -/
lemma chainValueOpt_eq_ref (fF : Int → Option Int) (fR : Int → Int)
    (c : Int) (B : Nat)
    (hstep : ∀ v : Int, v.natAbs ≤ B →
      fF v = some (fR v) ∧ (fR v).natAbs ≤ B)
    (hc : c.natAbs ≤ B) :
    ∀ i, chainValueOpt fF c i = some (chainValue fR c i) ∧
      (chainValue fR c i).natAbs ≤ B := by
  intro i
  induction i with
  | zero => exact ⟨rfl, hc⟩
  | succ j ih =>
    obtain ⟨h1, h2⟩ := ih
    obtain ⟨h3, h4⟩ := hstep (chainValue fR c j) h2
    refine ⟨?_, h4⟩
    show (chainValueOpt fF c j).bind fF = some (fR (chainValue fR c j))
    rw [h1]
    show fF (chainValue fR c j) = some (fR (chainValue fR c j))
    exact h3

/-- The source chain loop agrees with the reference loop under the same
step-agreement invariant (in particular no error is raised). -/
lemma runChain_eq_ref (fF : Int → Option Int) (fR : Int → Int)
    (sk orig c : Int) (B : Nat)
    (hstep : ∀ v : Int, v.natAbs ≤ B →
      fF v = some (fR v) ∧ (fR v).natAbs ≤ B)
    (hsk : sk ≠ 0) (hBlt : B < 2 ^ 52) (hc : c.natAbs ≤ B) :
    ∀ k, runChain fF sk orig k ⟨c, 0, false⟩ =
        some (runChainRef fR sk orig k ⟨c, 0, false⟩) ∧
      (runChainRef fR sk orig k ⟨c, 0, false⟩).current.natAbs ≤ B := by
  intro k
  induction k with
  | zero => exact ⟨rfl, hc⟩
  | succ n ih =>
    obtain ⟨h1, h2⟩ := ih
    have hrc : runChain fF sk orig (n + 1) ⟨c, 0, false⟩ =
        (runChain fF sk orig n ⟨c, 0, false⟩).bind (chainStep fF sk orig) := rfl
    rw [hrc, h1]
    set sR := runChainRef fR sk orig n ⟨c, 0, false⟩ with hsR
    have hrr : runChainRef fR sk orig (n + 1) ⟨c, 0, false⟩ =
        chainStepRef fR sk orig sR := rfl
    rw [hrr]
    show chainStep fF sk orig sR = some (chainStepRef fR sk orig sR) ∧
      (chainStepRef fR sk orig sR).current.natAbs ≤ B
    by_cases hb : sR.broken = true
    · have hF : chainStep fF sk orig sR = some sR := by
        unfold chainStep
        rw [if_pos hb]
      have hR : chainStepRef fR sk orig sR = sR := by
        unfold chainStepRef
        rw [if_pos hb]
      rw [hF, hR]
      exact ⟨rfl, h2⟩
    · obtain ⟨hfv, hfb⟩ := hstep sR.current h2
      have hdec : decrypt sk (fR sR.current) = some (decryptRef sk (fR sR.current)) :=
        decrypt_eq_ref sk (fR sR.current) hsk (by omega)
      have hF : chainStep fF sk orig sR =
          (if decryptRef sk (fR sR.current) ≠ orig
           then some { current := fR sR.current, num := sR.num, broken := true }
           else some { current := fR sR.current, num := sR.num + 1, broken := false }) := by
        unfold chainStep
        rw [if_neg hb]
        simp only [hfv, hdec]
      have hR : chainStepRef fR sk orig sR =
          (if decryptRef sk (fR sR.current) ≠ orig
           then { current := fR sR.current, num := sR.num, broken := true }
           else { current := fR sR.current, num := sR.num + 1, broken := false }) := by
        unfold chainStepRef
        rw [if_neg hb]
      rw [hF, hR]
      by_cases hd : decryptRef sk (fR sR.current) ≠ orig
      · rw [if_pos hd, if_pos hd]
        exact ⟨rfl, hfb⟩
      · rw [if_neg hd, if_neg hd]
        exact ⟨rfl, hfb⟩

/-- For bounded ciphertext and modulus, the source `test_operations`
raises no error and returns exactly the reference counters. -/
lemma test_operations_eq_ref (ct sk x0 : Int) (k : Nat) (hsk : sk ≠ 0)
    (hx0 : x0 ≠ 0) (hct : ct.natAbs ≤ 2 ^ 25) (hx : x0.natAbs ≤ 2 ^ 25) :
    test_operations ct sk x0 k = some (test_operationsRef ct sk x0 k) := by
  have hlit : (2 : Nat) ^ 25 < 2 ^ 52 := by norm_num
  have hdec0 : decrypt sk ct = some (decryptRef sk ct) :=
    decrypt_eq_ref sk ct hsk (by omega)
  obtain ⟨hx1, _⟩ := runChain_eq_ref (fun cur => homomorphic_xor cur ct x0)
    (fun cur => homomorphic_xorRef cur ct x0) sk (decryptRef sk ct) ct (2 ^ 25)
    (xor_step_agree ct x0 hx0 hct hx) hsk (by norm_num) hct k
  obtain ⟨ha1, _⟩ := runChain_eq_ref (fun cur => homomorphic_and cur ct x0)
    (fun cur => homomorphic_andRef cur ct x0) sk (decryptRef sk ct) ct (2 ^ 25)
    (and_step_agree ct x0 hx0 hct hx) hsk (by norm_num) hct k
  unfold test_operations
  rw [hdec0]
  show (runChain (fun cur => homomorphic_xor cur ct x0) sk (decryptRef sk ct) k
      ⟨ct, 0, false⟩).bind _ = _
  rw [hx1]
  show (runChain (fun cur => homomorphic_and cur ct x0) sk (decryptRef sk ct) k
      ⟨ct, 0, false⟩).map _ = _
  rw [ha1]
  rfl

/-- Source XOR chain values agree with the reference chain values for
bounded ciphertext and modulus. -/
lemma xorChainValue_eq_ref (ct x0 : Int) (hx0 : x0 ≠ 0)
    (hct : ct.natAbs ≤ 2 ^ 25) (hx : x0.natAbs ≤ 2 ^ 25) (i : Nat) :
    xorChainValue ct x0 i = some (xorChainValueRef ct x0 i) :=
  (chainValueOpt_eq_ref (fun cur => homomorphic_xor cur ct x0)
    (fun cur => homomorphic_xorRef cur ct x0) ct (2 ^ 25)
    (xor_step_agree ct x0 hx0 hct hx) hct i).1

/-- Source AND chain values agree with the reference chain values for
bounded ciphertext and modulus. -/
lemma andChainValue_eq_ref (ct x0 : Int) (hx0 : x0 ≠ 0)
    (hct : ct.natAbs ≤ 2 ^ 25) (hx : x0.natAbs ≤ 2 ^ 25) (i : Nat) :
    andChainValue ct x0 i = some (andChainValueRef ct x0 i) :=
  (chainValueOpt_eq_ref (fun cur => homomorphic_and cur ct x0)
    (fun cur => homomorphic_andRef cur ct x0) ct (2 ^ 25)
    (and_step_agree ct x0 hx0 hct hx) hct i).1

/-- `encrypt_bit` with a drawn subset indexing into the key computes the
source centered reduction of `m + 2 r + 2 Σ_{i ∈ S} pk[i]` modulo
`pk[0]`. -/
lemma encrypt_bit_eq (m r : Int) (pk : List Int) (rho tau : Nat)
    (S : List Nat) (htau : 1 ≤ tau) (hpk : tau + 1 ≤ pk.length)
    (hmem : ∀ i ∈ S, 1 ≤ i ∧ i ≤ tau) :
    encrypt_bit m pk rho tau S r =
      mod_p (m + 2 * r + 2 * (S.map (fun i => pk.getD i 0)).sum)
        (pk.getD 0 0) := by
  have hmap : S.map
      (fun i => ((List.range tau).map (fun j => pk.getD (j + 1) 0)).getD (i - 1) 0)
      = S.map (fun i => pk.getD i 0) :=
    List.map_congr_left
      (fun i hi => x_values_getD pk tau i (hmem i hi).1 (hmem i hi).2 hpk)
  simp only [encrypt_bit]
  rw [if_neg (by omega), if_neg (by omega), hmap]

/-- `mod_p` with modulus `0` raises (Python: ZeroDivisionError from `z / 0`). -/
lemma q_p_zero_mod (z : Int) : q_p z 0 = none := by
  unfold q_p
  rw [if_pos rfl]

/-- `mod_p` with modulus `0` raises. -/
lemma mod_p_zero_mod (z : Int) : mod_p z 0 = none := by
  unfold mod_p
  rw [q_p_zero_mod]
  rfl

/-- `decrypt` with secret key `0` raises. -/
lemma decrypt_zero_sk (c : Int) : decrypt 0 c = none := by
  unfold decrypt
  rw [mod_p_zero_mod]
  rfl

/-- Claim C1, counterexample.  Two failures of the claimed half-open
interval `(-p/2, p/2]`: `mod_p(7, 2) = -1` attains the excluded lower
endpoint `-p/2` (banker's rounding rounds the tie `3.5` up to `4`), and
`mod_p(10^17 + 1, 1) = 1` lies entirely outside `(-1/2, 1/2]` because
CPython evaluates `z / p` in binary floating point, which already loses
the low bit of `10^17 + 1`. -/
theorem C1_counterexample :
    (mod_p 7 2 = some (-1) ∧ ¬ (-(2 : Int) < 2 * (-1))) ∧
    (mod_p 100000000000000001 1 = some 1 ∧ ¬ (2 * (1 : Int) ≤ 1)) :=
  ⟨⟨by decide, by decide⟩, by decide, by decide⟩

/-- Claim C1, amended.  For a nonzero modulus and a dividend within double
precision (`|z| < 2^52`, where the float division is exact enough for
`round` to agree with exact banker's rounding), `mod_p(z, p)` raises no
error and returns `z - q_pRef(z,p)·p`, which is congruent to `z` modulo
`p` and lies in the CLOSED interval `[-|p|/2, |p|/2]`: both endpoints are
attainable, so the interval is not half-open on the low end. -/
theorem C1_centeredMod_spec (z p : Int) (hp : p ≠ 0) (hz : z.natAbs < 2 ^ 52) :
    mod_p z p = some (mod_pRef z p) ∧
    mod_pRef z p = z - q_pRef z p * p ∧
    p ∣ z - mod_pRef z p ∧
    -|p| ≤ 2 * mod_pRef z p ∧ 2 * mod_pRef z p ≤ |p| :=
  ⟨mod_p_eq_ref z p hp hz, rfl, mod_pRef_congr z p,
   (mod_pRef_bound z p hp).1, (mod_pRef_bound z p hp).2⟩

/-- Claim C1, witness at `z = 7`, `p = 2`. -/
theorem C1_centeredMod_spec_witness :
    mod_p 7 2 = some (mod_pRef 7 2) ∧
    mod_pRef 7 2 = 7 - q_pRef 7 2 * 2 ∧
    (2 : Int) ∣ 7 - mod_pRef 7 2 ∧
    -|(2 : Int)| ≤ 2 * mod_pRef 7 2 ∧ 2 * mod_pRef 7 2 ≤ |(2 : Int)| :=
  C1_centeredMod_spec 7 2 (by decide) (by decide)

/-- Claim C2, counterexample.  `decrypt(100, 3) = -1`, outside the claimed
codomain `{0, 1}`; moreover `decrypt(1, 2^200 + 2^54 + 2) = 2`, which even
falls outside `{-1, 0, 1}` and differs from the exact double centered
reduction (`0`), because the float division inside `mod_p` discards the
low-order bits of the ciphertext. -/
theorem C2_counterexample :
    decrypt 100 3 = some (-1) ∧ (-1 : Int) ≠ 0 ∧ (-1 : Int) ≠ 1 ∧
    decrypt 1 (pow2 200 + pow2 54 + 2) = some 2 ∧
    mod_pRef (mod_pRef (pow2 200 + pow2 54 + 2) 1) 2 = 0 :=
  ⟨by decide, by decide, by decide, by decide, by decide⟩

/-- Claim C2, amended.  For a nonzero secret key and a ciphertext within
double precision, `decrypt(sk, c)` raises no error, equals the exact
`centeredMod(centeredMod(c, sk), 2)`, and returns a value in `{-1, 0, 1}`
(not always `0` or `1`).  Purity is definitional: the source function
reads no mutable or random state. -/
theorem C2_decrypt_spec (sk c : Int) (hsk : sk ≠ 0) (hc : c.natAbs < 2 ^ 52) :
    decrypt sk c = some (decryptRef sk c) ∧
    decryptRef sk c = mod_pRef (mod_pRef c sk) 2 ∧
    (decryptRef sk c = -1 ∨ decryptRef sk c = 0 ∨ decryptRef sk c = 1) :=
  ⟨decrypt_eq_ref sk c hsk hc, rfl, decryptRef_mem sk c⟩

/-- Claim C2, witness at `sk = 100`, `c = 3`. -/
theorem C2_decrypt_spec_witness :
    decrypt 100 3 = some (decryptRef 100 3) ∧
    decryptRef 100 3 = mod_pRef (mod_pRef 3 100) 2 ∧
    (decryptRef 100 3 = -1 ∨ decryptRef 100 3 = 0 ∨ decryptRef 100 3 = 1) :=
  C2_decrypt_spec 100 3 (by decide) (by decide)

/-- Claim C3, counterexample.  With `ciphertext = 2^60 + 1` and `x0 = 5`
(nonzero), the iterated XOR chain of `test_operations` holds `-29` after
step 2, while the scheme's one-shot reduction `mod_p(ciphertext·3, x0)`
returns `131` and the exact centered residue is `1`: float rounding makes
the iterated value differ from `ciphertext·(i+1) mod x0` under either
reading of `mod`. -/
theorem C3_counterexample :
    xorChainValue (pow2 60 + 1) 5 2 = some (-29) ∧
    mod_p ((pow2 60 + 1) * 3) 5 = some 131 ∧
    mod_pRef ((pow2 60 + 1) * 3) 5 = 1 ∧
    (-29 : Int) ≠ 131 ∧ (-29 : Int) ≠ 1 :=
  ⟨by decide, by decide, by decide, by decide, by decide⟩

/-- Claim C3, amended.  For an ODD modulus `x0` and ciphertext and modulus
below `2^25` (so every intermediate value stays within double precision
and no rounding tie can occur), the source XOR chain after step `i + 1`
holds exactly `centeredMod(ciphertext·(i+2), x0)` and the AND chain holds
`centeredMod(ciphertext^(i+2), x0)`, with no error raised. -/
theorem C3_chain_values (ct x0 : Int) (i : Nat) (hodd : x0 % 2 = 1)
    (hct : ct.natAbs ≤ 2 ^ 25) (hx : x0.natAbs ≤ 2 ^ 25) :
    xorChainValue ct x0 (i + 1) = some (mod_pRef (ct * ((i : Int) + 2)) x0) ∧
    andChainValue ct x0 (i + 1) = some (mod_pRef (ct ^ (i + 2)) x0) := by
  have hx0 : x0 ≠ 0 := by intro h; omega
  constructor
  · rw [xorChainValue_eq_ref ct x0 hx0 hct hx (i + 1),
      xorChainValueRef_spec ct x0 hodd i]
  · rw [andChainValue_eq_ref ct x0 hx0 hct hx (i + 1),
      andChainValueRef_spec ct x0 hodd i]

/-- Claim C3, witness at `ciphertext = 2`, `x0 = 5`, step 1. -/
theorem C3_chain_values_witness :
    xorChainValue 2 5 (0 + 1) = some (mod_pRef (2 * (((0 : Nat) : Int) + 2)) 5) ∧
    andChainValue 2 5 (0 + 1) = some (mod_pRef (2 ^ (0 + 2)) 5) :=
  C3_chain_values 2 5 0 (by decide) (by decide) (by decide)

/-- Claim C4, counterexample.  `q_p(10^17 + 1, 1) = 10^17`, which is NOT
the integer nearest to the exact rational `(10^17 + 1)/1`: the multiple
`(10^17 + 1)·1` is strictly closer.  CPython's float division rounds
`10^17 + 1` to the nearest representable double `10^17` before `round`
sees it. -/
theorem C4_counterexample :
    q_p 100000000000000001 1 = some 100000000000000000 ∧
    |(100000000000000001 : Int) - 100000000000000001 * 1| <
      |(100000000000000001 : Int) - 100000000000000000 * 1| :=
  ⟨by decide, by decide⟩

/-- Claim C4, amended.  For a nonzero modulus and a dividend within double
precision, `q_p(z, p)` raises no error and returns the exact banker's
rounding of `z/p`: `q_pRef(z,p)·p` is a multiple of `p` nearest to `z`,
and if any other multiple `k·p` is equally near then a tie occurred and
the chosen quotient is even.  The claim's concrete instances
`q_p(5,2) = 2`, `mod_p(5,2) = 1`, `q_p(17,5) = 3`, `mod_p(17,5) = 2` do
hold (their quotients fit double precision). -/
theorem C4_roundedQuotient_spec (z p k : Int) (hp : p ≠ 0)
    (hz : z.natAbs < 2 ^ 52) :
    q_p z p = some (q_pRef z p) ∧
    |z - q_pRef z p * p| ≤ |z - k * p| ∧
    (k ≠ q_pRef z p → |z - k * p| = |z - q_pRef z p * p| →
      q_pRef z p % 2 = 0) :=
  ⟨q_p_eq_ref z p hp hz, mod_pRef_nearest z p k hp,
   fun hk he => mod_pRef_tie_of_eq z p k hp hk he⟩

/-- Claim C4, witness at `z = 5`, `p = 2`, competitor `k = 3`, together
with the claim's four concrete evaluations. -/
theorem C4_roundedQuotient_spec_witness :
    (q_p 5 2 = some (q_pRef 5 2) ∧
     |(5 : Int) - q_pRef 5 2 * 2| ≤ |(5 : Int) - 3 * 2| ∧
     ((3 : Int) ≠ q_pRef 5 2 → |(5 : Int) - 3 * 2| = |(5 : Int) - q_pRef 5 2 * 2| →
       q_pRef 5 2 % 2 = 0)) ∧
    q_p 5 2 = some 2 ∧ mod_p 5 2 = some 1 ∧
    q_p 17 5 = some 3 ∧ mod_p 17 5 = some 2 :=
  ⟨C4_roundedQuotient_spec 5 2 3 (by decide) (by decide),
   by decide, by decide, by decide, by decide⟩

/-- Claim C5, counterexample.  With `ciphertext = 2^2000`, `sk = 1`,
`x0 = 1` (both moduli nonzero) and cap `1`, `test_operations` returns no
pair at all: the initial `decrypt` raises OverflowError because the float
division `2^2000 / 1` exceeds the largest finite double. -/
theorem C5_counterexample :
    test_operations (pow2 2000) 1 1 1 = none ∧ (1 : Int) ≠ 0 :=
  ⟨by decide, by decide⟩

/-- Claim C5, amended.  For nonzero `sk` and `x0` and ciphertext and
modulus below `2^25`, `test_operations` raises no error and returns a pair
with each component in `[0, k]` (counters are naturals, so `0 ≤` is
automatic); each counter counts exactly the consecutive initial steps of
its chain that decrypt to `decrypt(sk, ciphertext)`, and a counter below
the cap means its chain diverges at the very next step. -/
theorem C5_test_operations_spec (ct sk x0 : Int) (k i j : Nat) (hsk : sk ≠ 0)
    (hx0 : x0 ≠ 0) (hct : ct.natAbs ≤ 2 ^ 25) (hx : x0.natAbs ≤ 2 ^ 25) :
    test_operations ct sk x0 k = some (test_operationsRef ct sk x0 k) ∧
    (test_operationsRef ct sk x0 k).1 ≤ k ∧
    (test_operationsRef ct sk x0 k).2 ≤ k ∧
    (1 ≤ i → i ≤ (test_operationsRef ct sk x0 k).1 →
      decryptRef sk (xorChainValueRef ct x0 i) = decryptRef sk ct) ∧
    (1 ≤ j → j ≤ (test_operationsRef ct sk x0 k).2 →
      decryptRef sk (andChainValueRef ct x0 j) = decryptRef sk ct) ∧
    ((test_operationsRef ct sk x0 k).1 < k →
      decryptRef sk (xorChainValueRef ct x0 ((test_operationsRef ct sk x0 k).1 + 1)) ≠
        decryptRef sk ct) ∧
    ((test_operationsRef ct sk x0 k).2 < k →
      decryptRef sk (andChainValueRef ct x0 ((test_operationsRef ct sk x0 k).2 + 1)) ≠
        decryptRef sk ct) := by
  obtain ⟨hx1, hx2, hx3, hx4⟩ := runChainRef_inv
    (fun cur => homomorphic_xorRef cur ct x0) sk (decryptRef sk ct) ct k
  obtain ⟨ha1, ha2, ha3, ha4⟩ := runChainRef_inv
    (fun cur => homomorphic_andRef cur ct x0) sk (decryptRef sk ct) ct k
  have hfst : (test_operationsRef ct sk x0 k).1 =
      (runChainRef (fun cur => homomorphic_xorRef cur ct x0) sk (decryptRef sk ct) k
        ⟨ct, 0, false⟩).num := rfl
  have hsnd : (test_operationsRef ct sk x0 k).2 =
      (runChainRef (fun cur => homomorphic_andRef cur ct x0) sk (decryptRef sk ct) k
        ⟨ct, 0, false⟩).num := rfl
  refine ⟨test_operations_eq_ref ct sk x0 k hsk hx0 hct hx, hx1, ha1,
    fun h1 h2 => hx2 i h1 h2, fun h1 h2 => ha2 j h1 h2, ?_, ?_⟩
  · intro hlt
    rw [hfst] at hlt
    by_cases hb : (runChainRef (fun cur => homomorphic_xorRef cur ct x0) sk
        (decryptRef sk ct) k ⟨ct, 0, false⟩).broken = true
    · exact hx3 hb
    · have hbf : (runChainRef (fun cur => homomorphic_xorRef cur ct x0) sk
          (decryptRef sk ct) k ⟨ct, 0, false⟩).broken = false := by
        revert hb
        cases (runChainRef (fun cur => homomorphic_xorRef cur ct x0) sk
          (decryptRef sk ct) k ⟨ct, 0, false⟩).broken <;> simp
      have := (hx4 hbf).1
      omega
  · intro hlt
    rw [hsnd] at hlt
    by_cases hb : (runChainRef (fun cur => homomorphic_andRef cur ct x0) sk
        (decryptRef sk ct) k ⟨ct, 0, false⟩).broken = true
    · exact ha3 hb
    · have hbf : (runChainRef (fun cur => homomorphic_andRef cur ct x0) sk
          (decryptRef sk ct) k ⟨ct, 0, false⟩).broken = false := by
        revert hb
        cases (runChainRef (fun cur => homomorphic_andRef cur ct x0) sk
          (decryptRef sk ct) k ⟨ct, 0, false⟩).broken <;> simp
      have := (ha4 hbf).1
      omega

/-- Claim C5, witness at `ciphertext = 2`, `sk = 97`, `x0 = 1000003`,
cap `5`, probe indices `i = j = 1`. -/
theorem C5_test_operations_spec_witness :
    test_operations 2 97 1000003 5 = some (test_operationsRef 2 97 1000003 5) ∧
    (test_operationsRef 2 97 1000003 5).1 ≤ 5 ∧
    (test_operationsRef 2 97 1000003 5).2 ≤ 5 ∧
    (1 ≤ 1 → 1 ≤ (test_operationsRef 2 97 1000003 5).1 →
      decryptRef 97 (xorChainValueRef 2 1000003 1) = decryptRef 97 2) ∧
    (1 ≤ 1 → 1 ≤ (test_operationsRef 2 97 1000003 5).2 →
      decryptRef 97 (andChainValueRef 2 1000003 1) = decryptRef 97 2) ∧
    ((test_operationsRef 2 97 1000003 5).1 < 5 →
      decryptRef 97
        (xorChainValueRef 2 1000003 ((test_operationsRef 2 97 1000003 5).1 + 1)) ≠
        decryptRef 97 2) ∧
    ((test_operationsRef 2 97 1000003 5).2 < 5 →
      decryptRef 97
        (andChainValueRef 2 1000003 ((test_operationsRef 2 97 1000003 5).2 + 1)) ≠
        decryptRef 97 2) :=
  C5_test_operations_spec 2 97 1000003 5 1 1 (by decide) (by decide)
    (by decide) (by decide)

/-- Claim C6, counterexample.  With `pk = [1, 10^17 + 1]`, `rho = 0`,
`tau = 1`, the only possible subset is `S = {1}` and the only possible
noise values are `r ∈ {-1, 0, 1}`; the exact `centeredMod(m + 2r + 2·sum_S, 1)`
is `0` for every draw, yet `encrypt_bit(0, ...)` returns `2` for the draw
`S = {1}, r = 0`: float rounding inside `mod_p` makes the returned value
unequal to `centeredMod(m + 2r + 2·sum_S, x0)` for every admissible draw. -/
theorem C6_counterexample :
    encrypt_bit 0 [1, 100000000000000001] 0 1 [1] 0 = some 2 ∧
    mod_pRef (0 + 2 * (-1) + 2 * 100000000000000001) 1 = 0 ∧
    mod_pRef (0 + 2 * 0 + 2 * 100000000000000001) 1 = 0 ∧
    mod_pRef (0 + 2 * 1 + 2 * 100000000000000001) 1 = 0 ∧
    (2 : Int) ≠ 0 :=
  ⟨by decide, by decide, by decide, by decide, by decide⟩

/-- Claim C6, amended.  For well-formed key material (`tau ≥ 1`,
`len(pk) ≥ tau + 1`, `x0 ≠ 0`), any admissible draw (nonempty
`S ⊆ {1..tau}`, noise `r ∈ [-2^(2ρ), 2^(2ρ)]`), and an argument within
double precision, `encrypt_bit` raises no error and returns exactly
`centeredMod(m + 2r + 2·Σ_{i∈S} pk[i], pk[0])`.  The key list is read
only, never mutated (immutability is definitional in the embedding). -/
theorem C6_encryptBit_spec (m r : Int) (pk : List Int) (rho tau : Nat)
    (S : List Nat) (htau : 1 ≤ tau) (hpk : tau + 1 ≤ pk.length)
    (hS : S ≠ []) (hmem : ∀ i ∈ S, 1 ≤ i ∧ i ≤ tau)
    (hr : -(2 ^ (2 * rho) : Int) ≤ r ∧ r ≤ 2 ^ (2 * rho))
    (hx0 : pk.getD 0 0 ≠ 0)
    (hsz : (m + 2 * r + 2 * (S.map (fun i => pk.getD i 0)).sum).natAbs < 2 ^ 52) :
    encrypt_bit m pk rho tau S r =
      some (mod_pRef (m + 2 * r + 2 * (S.map (fun i => pk.getD i 0)).sum)
        (pk.getD 0 0)) := by
  rw [encrypt_bit_eq m r pk rho tau S htau hpk hmem]
  exact mod_p_eq_ref _ _ hx0 hsz

/-- Claim C6, witness at `m = 0`, `pk = [5, 3]`, `rho = 0`, `tau = 1`,
`S = [1]`, `r = 0`. -/
theorem C6_encryptBit_spec_witness :
    encrypt_bit 0 [5, 3] 0 1 [1] 0 =
      some (mod_pRef (0 + 2 * 0 + 2 * (([1].map (fun i => [5, 3].getD i 0)).sum))
        ([5, 3].getD 0 0)) :=
  C6_encryptBit_spec 0 0 [5, 3] 0 1 [1] (by decide) (by decide) (by decide)
    (by decide) (by decide) (by decide) (by decide)

/-- Claim C7, counterexample.  `mod_p(2^2000, 1)` fails with an
ArithmeticError although the modulus `1` is nonzero: the float division
`2^2000 / 1` overflows the double range and CPython raises OverflowError,
a subclass of ArithmeticError. -/
theorem C7_counterexample :
    mod_p (pow2 2000) 1 = none ∧ (1 : Int) ≠ 0 :=
  ⟨by decide, by decide⟩

/-- Claim C7, amended.  `mod_p(z, 0)` and `decrypt(0, c)` always fail with
an ArithmeticError (ZeroDivisionError); for a NONZERO modulus the absence
of an error is only guaranteed when the dividend is within double
precision — otherwise OverflowError (also an ArithmeticError) is
possible — and then the exact values are returned. -/
theorem C7_arithmetic_error_spec (z p c sk : Int) (hp : p ≠ 0) (hsk : sk ≠ 0)
    (hz : z.natAbs < 2 ^ 52) (hc : c.natAbs < 2 ^ 52) :
    mod_p z 0 = none ∧ decrypt 0 c = none ∧
    mod_p z p = some (mod_pRef z p) ∧ decrypt sk c = some (decryptRef sk c) :=
  ⟨mod_p_zero_mod z, decrypt_zero_sk c, mod_p_eq_ref z p hp hz,
   decrypt_eq_ref sk c hsk hc⟩

/-- Claim C7, witness at `z = 7`, `p = 2`, `c = 3`, `sk = 100`. -/
theorem C7_arithmetic_error_spec_witness :
    mod_p 7 0 = none ∧ decrypt 0 3 = none ∧
    mod_p 7 2 = some (mod_pRef 7 2) ∧ decrypt 100 3 = some (decryptRef 100 3) :=
  C7_arithmetic_error_spec 7 2 3 100 (by decide) (by decide) (by decide)
    (by decide)

/-- Claim C8, counterexample.  With `ciphertext = 2^2000`, `sk = 1`,
`x0 = 1` and caps `0 ≤ 2`, `test_operations` returns no counters at
either cap (OverflowError from the initial decryption), so the claimed
total-function monotonicity has no returned components to compare. -/
theorem C8_counterexample :
    test_operations (pow2 2000) 1 1 0 = none ∧
    test_operations (pow2 2000) 1 1 2 = none ∧
    (0 : Nat) ≤ 2 ∧ (1 : Int) ≠ 0 :=
  ⟨by decide, by decide, by decide, by decide⟩

/-- Claim C8, amended.  For nonzero `sk` and `x0` and ciphertext and
modulus below `2^25`, `test_operations` returns a pair at every cap
(determinism is definitional: the embedded function consumes no
randomness), and for caps `k1 ≤ k2` each component at `k1` is at most the
corresponding component at `k2`. -/
theorem C8_test_operations_mono (ct sk x0 : Int) (k1 k2 : Nat) (h : k1 ≤ k2)
    (hsk : sk ≠ 0) (hx0 : x0 ≠ 0) (hct : ct.natAbs ≤ 2 ^ 25)
    (hx : x0.natAbs ≤ 2 ^ 25) :
    test_operations ct sk x0 k1 = some (test_operationsRef ct sk x0 k1) ∧
    test_operations ct sk x0 k2 = some (test_operationsRef ct sk x0 k2) ∧
    (test_operationsRef ct sk x0 k1).1 ≤ (test_operationsRef ct sk x0 k2).1 ∧
    (test_operationsRef ct sk x0 k1).2 ≤ (test_operationsRef ct sk x0 k2).2 := by
  refine ⟨test_operations_eq_ref ct sk x0 k1 hsk hx0 hct hx,
    test_operations_eq_ref ct sk x0 k2 hsk hx0 hct hx, ?_, ?_⟩
  · exact runChainRef_num_mono (fun cur => homomorphic_xorRef cur ct x0) sk
      (decryptRef sk ct) ct k1 k2 h
  · exact runChainRef_num_mono (fun cur => homomorphic_andRef cur ct x0) sk
      (decryptRef sk ct) ct k1 k2 h

/-- Claim C8, witness at `ciphertext = 3`, `sk = 97`, `x0 = 1000003`,
caps `2 ≤ 5`. -/
theorem C8_test_operations_mono_witness :
    test_operations 3 97 1000003 2 = some (test_operationsRef 3 97 1000003 2) ∧
    test_operations 3 97 1000003 5 = some (test_operationsRef 3 97 1000003 5) ∧
    (test_operationsRef 3 97 1000003 2).1 ≤ (test_operationsRef 3 97 1000003 5).1 ∧
    (test_operationsRef 3 97 1000003 2).2 ≤ (test_operationsRef 3 97 1000003 5).2 :=
  C8_test_operations_mono 3 97 1000003 2 5 (by decide) (by decide) (by decide)
    (by decide) (by decide)

/-- Claim C9, counterexample.  `encrypt_bit` with plaintext `m = 2`
(outside `{0, 1}`), key `pk = [5, 3]`, `rho = 0`, `tau = 1`, draw
`S = [1]`, `r = 0` returns the ciphertext `-2` instead of failing: no
validation of the plaintext bit exists anywhere in the code. -/
theorem C9_counterexample :
    encrypt_bit 2 [5, 3] 0 1 [1] 0 = some (-2) ∧
    (2 : Int) ≠ 0 ∧ (2 : Int) ≠ 1 :=
  ⟨by decide, by decide, by decide⟩

/-- Claim C9, amended.  `encrypt_bit` performs no plaintext validation:
for EVERY integer `m` — including every `m` outside `{0, 1}` — with
well-formed key material, an admissible draw, and an argument within
double precision, it raises no error and returns a ciphertext exactly as
for a legal bit.  No ValidationError exists at the Encryptor boundary in
the code. -/
theorem C9_encryptBit_no_validation (m r : Int) (pk : List Int) (rho tau : Nat)
    (S : List Nat) (htau : 1 ≤ tau) (hpk : tau + 1 ≤ pk.length)
    (hmem : ∀ i ∈ S, 1 ≤ i ∧ i ≤ tau) (hx0 : pk.getD 0 0 ≠ 0)
    (hsz : (m + 2 * r + 2 * (S.map (fun i => pk.getD i 0)).sum).natAbs < 2 ^ 52) :
    encrypt_bit m pk rho tau S r ≠ none := by
  rw [encrypt_bit_eq m r pk rho tau S htau hpk hmem,
    mod_p_eq_ref _ _ hx0 hsz]
  intro h
  exact Option.noConfusion h

/-- Claim C9, witness at the illegal plaintext `m = 2`. -/
theorem C9_encryptBit_no_validation_witness :
    encrypt_bit 2 [5, 3] 0 1 [1] 0 ≠ none :=
  C9_encryptBit_no_validation 2 0 [5, 3] 0 1 [1] (by decide) (by decide)
    (by decide) (by decide) (by decide)

/-- Claim C10, counterexample.  `decrypt(1, 2^200 + 2^54 + 2) = 2`,
outside `{-1, 0, 1}`: the float division inside the outer `mod_p` loses
the low bits of the intermediate residue, so even the implicit
three-element codomain fails for large ciphertexts. -/
theorem C10_counterexample :
    decrypt 1 (pow2 200 + pow2 54 + 2) = some 2 ∧
    (2 : Int) ≠ -1 ∧ (2 : Int) ≠ 0 ∧ (2 : Int) ≠ 1 :=
  ⟨by decide, by decide, by decide, by decide⟩

/-- Claim C10, amended.  For a nonzero secret key and a ciphertext within
double precision, every value `decrypt` returns lies in `{-1, 0, 1}`;
`-1` is attained (for instance at `sk = 100`, `c = 3`), so it is the only
possible value outside `{0, 1}`. -/
theorem C10_decrypt_range (sk c d : Int) (hsk : sk ≠ 0)
    (hc : c.natAbs < 2 ^ 52) (hd : decrypt sk c = some d) :
    d = -1 ∨ d = 0 ∨ d = 1 := by
  rw [decrypt_eq_ref sk c hsk hc] at hd
  obtain rfl : decryptRef sk c = d := Option.some.inj hd
  exact decryptRef_mem sk c

/-- Claim C10, witness at `sk = 100`, `c = 3`, returned value `-1`
(showing `-1` is attained). -/
theorem C10_decrypt_range_witness :
    ((-1 : Int) = -1 ∨ (-1 : Int) = 0 ∨ (-1 : Int) = 1) ∧
    decrypt 100 3 = some (-1) :=
  ⟨C10_decrypt_range 100 3 (-1) (by decide) (by decide) (by decide), by decide⟩

end SWHE
